import Mathlib

/-!
Shallow embedding of the URL-shortener server (`server/index.ts`).

The embedded pieces, translated from the source:

* the in-memory redirect cache (`cacheGet` / `cacheSet`), where the JS
  `Map` is modelled as an association list kept in insertion order
  (head = first-inserted key, which is what `Map.keys().next()` yields);
* link qualification (`isShortenable`), with the JavaScript string
  operations `trim` / `toLowerCase` / `startsWith` embedded over `List Char`;
* the short-id allocator (`createUrlWithUniqueShortId`) with its
  retry-on-P2002 loop, parametric over the durable store's `create`
  behaviour (the Prisma client is an external effect; `nanoid` is an
  oracle stream `ids : Nat → String`);
* the two-pass `/shorten` pipeline (collect, resolve, rewrite) over a
  document modelled as a list of element / text nodes;
* the `/r/:id` redirect handler.

Timestamps are `Nat` milliseconds; `Date.now()` is passed explicitly as
`now` (the handler reads the clock within one tick).
-/

namespace UrlShortener

/-! ## The embedded definitions -/

/-- One redirect-cache entry: `value` is the resolved original URL, or
`none` for the negative ("not found") tombstone; `expiresAt` is an
absolute timestamp in ms.  (`type CacheEntry = { value: string | null;
expiresAt: number }`.) -/
structure CacheEntry where
  value : Option String
  expiresAt : Nat
deriving DecidableEq

/-- The redirect cache: a JS `Map` modelled as an association list in
insertion order; the list head is the first-inserted (least recently
touched) entry. -/
abbrev Cache := List (String × CacheEntry)

/-- Cache configuration: `CACHE_MAX_ENTRIES`, `CACHE_TTL_MS`,
`CACHE_404_TTL_MS`. -/
structure CacheConfig where
  maxEntries : Nat
  ttlMs : Nat
  negTtlMs : Nat
deriving DecidableEq

/-- JS `Map.set`: when the key is already present the value is updated in
place and the key keeps its original insertion-order position; otherwise
the pair is appended at the most-recent end. -/
def mapSet (c : Cache) (k : String) (e : CacheEntry) : Cache :=
  if c.any (fun p => decide (p.1 = k)) then
    c.map (fun p => if p.1 = k then (k, e) else p)
  else c ++ [(k, e)]

/-- JS `Map.delete`. -/
def mapDelete (c : Cache) (k : String) : Cache :=
  c.filter (fun p => decide (¬ p.1 = k))

/-- JS `Map.get`. -/
def mapGet (c : Cache) (k : String) : Option CacheEntry :=
  (c.find? (fun p => decide (p.1 = k))).map (·.2)

/-- `cacheGet` (source lines 158–170): `undefined` (modelled `none`) on
miss or on a lazily-deleted expired entry; on a live hit, return the
value, delete and re-insert the entry at the most-recently-used end with
its TTL slid to `now + ttl` (negative TTL for tombstones, positive
otherwise).  Returns the response together with the updated cache. -/
def cacheGet (cfg : CacheConfig) (now : Nat) (c : Cache) (key : String) :
    Option (Option String) × Cache :=
  match mapGet c key with
  | none => (none, c)
  | some entry =>
    if entry.expiresAt ≤ now then
      (none, mapDelete c key)
    else
      let ttl := if entry.value = none then cfg.negTtlMs else cfg.ttlMs
      (some entry.value,
        mapSet (mapDelete c key) key ⟨entry.value, now + ttl⟩)

/-- `cacheSet` (source lines 172–180): store the value with
`expiresAt = now + ttl` (negative TTL when the value is the `null`
tombstone), then, if the size exceeds `CACHE_MAX_ENTRIES`, delete the
first key in iteration order (`Map.keys().next().value`). -/
def cacheSet (cfg : CacheConfig) (now : Nat) (c : Cache) (key : String)
    (value : Option String) : Cache :=
  let ttl := if value = none then cfg.negTtlMs else cfg.ttlMs
  let c1 := mapSet c key ⟨value, now + ttl⟩
  if c1.length > cfg.maxEntries then
    match c1.head? with
    | some p => mapDelete c1 p.1
    | none => c1
  else c1

/-- Keys of a cache state, in recency order (head = least recent). -/
def cacheKeys (c : Cache) : List String :=
  c.map Prod.fst

/-- Well-formedness invariant of a JS `Map`: keys are pairwise distinct. -/
def CacheWF (c : Cache) : Prop :=
  (cacheKeys c).Nodup

/-- A two-entry cache used to exhibit the in-place update of `set`. -/
def c7Cache : Cache :=
  [("k1", ⟨some "u1", 100⟩), ("k2", ⟨some "u2", 100⟩)]

/-- JS `String.prototype.startsWith`, over character lists:
`listStartsWith s p` holds when `p` is an initial segment of `s`. -/
def listStartsWith : List Char → List Char → Bool
  | _, [] => true
  | [], _ :: _ => false
  | a :: as, b :: bs => a == b && listStartsWith as bs

/-- JS `s.startsWith(p)`. -/
def jsStartsWith (s p : String) : Bool :=
  listStartsWith s.data p.data

/-- JS `toLowerCase` on one character (ASCII range, which is all the
qualification rule inspects). -/
def jsCharLower (c : Char) : Char :=
  if 'A' ≤ c ∧ c ≤ 'Z' then Char.ofNat (c.toNat + 32) else c

/-- JS `s.toLowerCase()`. -/
def jsToLower (s : String) : String :=
  ⟨s.data.map jsCharLower⟩

/-- Whitespace removed by JS `trim`. -/
def jsIsWs (c : Char) : Bool :=
  c == ' ' || c == '\t' || c == '\n' || c == '\r'

/-- JS `s.trim()`: strip whitespace from both ends. -/
def jsTrim (s : String) : String :=
  ⟨((s.data.dropWhile jsIsWs).reverse.dropWhile jsIsWs).reverse⟩

/-- `isShortenable` (source lines 218–227): `undefined`, `null` and `""`
are falsy and rejected; then, on `lower = href.trim().toLowerCase()`,
the `mailto:` / `tel:` / `javascript:` / `#` prefixes are rejected and
only `http://` / `https://` prefixes qualify. -/
def isShortenable (href : Option String) : Bool :=
  match href with
  | none => false
  | some h =>
    if h = "" then false
    else
      let lower := jsToLower (jsTrim h)
      if jsStartsWith lower "mailto:" then false
      else if jsStartsWith lower "tel:" then false
      else if jsStartsWith lower "javascript:" then false
      else if jsStartsWith lower "#" then false
      else jsStartsWith lower "http://" || jsStartsWith lower "https://"

/-- A `Url` row (Prisma model): both `shortId` and `originalUrl` carry a
unique constraint (`createdAt` plays no role in the embedded logic). -/
structure Row where
  shortId : String
  originalUrl : String
deriving DecidableEq

/-- The durable store's table, in insertion order. -/
structure Store where
  rows : List Row
deriving DecidableEq

/-- `meta.target` of a Prisma `P2002` error: an array of field names, a
single string, or absent. -/
inductive P2002Target where
  | arr (ts : List String)
  | str (s : String)
  | absent
deriving DecidableEq

/-- A store failure: a `PrismaClientKnownRequestError` with its `code`
and `meta.target`, or any other error. -/
inductive PrismaError where
  | known (code : String) (target : P2002Target)
  | other
deriving DecidableEq

/-- `Array.isArray(target) ? target : target ? [target] : []` — note the
empty string is falsy in JS and normalises to `[]`. -/
def normTargets : P2002Target → List String
  | .arr ts => ts
  | .str s => if s = "" then [] else [s]
  | .absent => []

/-- The retry test of source lines 240–247: a `P2002` whose normalised
target list is empty or contains `shortId` is treated as a shortId
collision and retried; every other error is rethrown. -/
def p2002Retryable : PrismaError → Bool
  | .known code target =>
    decide (code = "P2002") &&
      (decide ((normTargets target).length = 0) ||
        (normTargets target).contains "shortId")
  | .other => false

/-- Errors surfaced by the allocator: a rethrown store error (`throw e`,
or `throw lastError` on exhaustion), or the fresh generic
`Error('Failed to generate a unique shortId after multiple attempts')`
when no attempt ever ran. -/
inductive AllocErr where
  | storeError (e : PrismaError)
  | genericExhausted
deriving DecidableEq

instance {ε α : Type} [DecidableEq ε] [DecidableEq α] :
    DecidableEq (Except ε α) := fun x y =>
  match x, y with
  | .ok a, .ok b =>
    if h : a = b then isTrue (h ▸ rfl)
    else isFalse (fun hc => h (Except.ok.inj hc))
  | .ok _, .error _ => isFalse (fun hc => Except.noConfusion hc)
  | .error _, .ok _ => isFalse (fun hc => Except.noConfusion hc)
  | .error a, .error b =>
    if h : a = b then isTrue (h ▸ rfl)
    else isFalse (fun hc => h (Except.error.inj hc))

/-- Result of one allocator call: the outcome, the resulting store, and
the next unused index of the `nanoid` oracle stream. -/
structure CreateRes where
  result : Except AllocErr String
  store : Store
  nextId : Nat
deriving DecidableEq

/-- The retry loop of `createUrlWithUniqueShortId` (source lines
232–254).  `create n candidate s` is the durable store's `create`
response to the `n`-th call of the process (the Prisma client is an
external effect); `ids` is the `nanoid` oracle stream; the fuel is the
remaining attempt budget; `lastError` is the last swallowed collision
error. -/
def createLoop (create : Nat → String → Store → Except PrismaError Store)
    (ids : Nat → String) :
    Nat → Nat → Store → Option PrismaError → CreateRes
  | n, 0, s, lastError =>
    ⟨.error (match lastError with
      | some e => .storeError e
      | none => .genericExhausted), s, n⟩
  | n, fuel + 1, s, _lastError =>
    let shortId := ids n
    match create n shortId s with
    | .ok s' => ⟨.ok shortId, s', n + 1⟩
    | .error e =>
      if p2002Retryable e then
        createLoop create ids (n + 1) fuel s (some e)
      else ⟨.error (.storeError e), s, n + 1⟩

/-- `createUrlWithUniqueShortId(originalUrl, length, maxAttempts)`
(source lines 231–255).  The identifier length is absorbed into the
`ids` oracle; `n` is the index of the next fresh `nanoid` draw. -/
def createUrlWithUniqueShortId
    (create : Nat → String → Store → Except PrismaError Store)
    (ids : Nat → String) (n : Nat) (s : Store) (maxAttempts : Nat) :
    CreateRes :=
  createLoop create ids n maxAttempts s none

/-- The durable store's `create` under its two uniqueness constraints
(spec §6): reject with `P2002` on an existing `shortId`, else with
`P2002` on an existing `originalUrl`, else append the row. -/
def storeCreate (originalUrl : String) (_n : Nat) (shortId : String)
    (s : Store) : Except PrismaError Store :=
  if s.rows.any (fun r => decide (r.shortId = shortId)) then
    .error (.known "P2002" (.arr ["shortId"]))
  else if s.rows.any (fun r => decide (r.originalUrl = originalUrl)) then
    .error (.known "P2002" (.arr ["originalUrl"]))
  else .ok ⟨s.rows ++ [⟨shortId, originalUrl⟩]⟩

/-- `prisma.url.findFirst({ where: { originalUrl } })`. -/
def findByOriginalUrl (s : Store) (originalUrl : String) : Option Row :=
  s.rows.find? (fun r => decide (r.originalUrl = originalUrl))

/-- `prisma.url.findUnique({ where: { shortId } })`. -/
def findByShortId (s : Store) (shortId : String) : Option Row :=
  s.rows.find? (fun r => decide (r.shortId = shortId))

/-- A node of the parsed document: an element with its tag name and
attribute list, or other content (text, comments), which the rewrite
never touches. -/
inductive Node where
  | element (tag : String) (attrs : List (String × String))
  | text (s : String)
deriving DecidableEq

/-- The targeted (element, attribute) pairs (source lines 280–286). -/
def attrTargets : List (String × String) :=
  [("a", "href"), ("area", "href"), ("link", "href"),
   ("img", "src"), ("script", "src")]

/-- `$el.attr(name)`: the attribute's value, or `undefined`. -/
def getAttr (attrs : List (String × String)) (name : String) :
    Option String :=
  (attrs.find? (fun p => decide (p.1 = name))).map (·.2)

/-- `$el.attr(name, v)`: overwrite the attribute (attribute names are
unique within a parsed element). -/
def setAttr (attrs : List (String × String)) (name v : String) :
    List (String × String) :=
  if (attrs.find? (fun p => decide (p.1 = name))).isSome then
    attrs.map (fun p => if p.1 = name then (name, v) else p)
  else attrs ++ [(name, v)]

/-- The qualifying value of one node for one target: the targeted
attribute's value when the node is an element with the targeted tag and
the value passes `isShortenable` — the test both passes perform. -/
def qualifyingValue (t : String × String) (n : Node) : Option String :=
  match n with
  | .element tag attrs =>
    if tag = t.1 then
      match getAttr attrs t.2 with
      | some h => if isShortenable (some h) then some h else none
      | none => none
    else none
  | .text _ => none

/-- `Map.set` on the request-scoped URL table. -/
def reqSet (m : List (String × String)) (k v : String) :
    List (String × String) :=
  if m.any (fun p => decide (p.1 = k)) then
    m.map (fun p => if p.1 = k then (k, v) else p)
  else m ++ [(k, v)]

/-- `Map.get` on the request-scoped URL table. -/
def reqGet (m : List (String × String)) (k : String) : Option String :=
  (m.find? (fun p => decide (p.1 = k))).map (·.2)

/-- Record the first occurrence of a qualifying value
(`if (!cache.get(href)) cache.set(href, '')`). -/
def insertNew (acc : List String) (h : String) : List String :=
  if acc.contains h then acc else acc ++ [h]

/-- Collection pass (source lines 292–304): scan every target over the
document; the result is the request map's key list, in insertion
order. -/
def collectPass (doc : List Node) : List String :=
  attrTargets.foldl
    (fun acc t =>
      doc.foldl
        (fun acc n =>
          match qualifyingValue t n with
          | some h => insertNew acc h
          | none => acc) acc) []

/-- JS `Array.from(new Set(l))`: first-occurrence deduplication. -/
def jsSetDedup (l : List String) : List String :=
  l.foldl insertNew []

/-- `const uniqueUrls = Array.from(new Set(Array.from(cache.keys())))`. -/
def uniqueUrlsOf (doc : List Node) : List String :=
  jsSetDedup (collectPass doc)

/-- Store operations performed by the resolution pass, recorded for
counting: one `findFirst` per distinct URL, and one allocator call when
no mapping exists yet. -/
inductive StoreOp where
  | findFirst (originalUrl : String) (found : Option Row)
  | allocCall (originalUrl : String)
deriving DecidableEq

/-- Result of the resolution pass: the request map (URL → short URL),
the store, the next `nanoid` index, the store-operation log, and the
failure that aborted the pass, if any. -/
structure ResolveRes where
  assignments : List (String × String)
  store : Store
  nextId : Nat
  log : List StoreOp
  failure : Option AllocErr
deriving DecidableEq

/-- Resolution pass (source lines 309–323): for each distinct URL, try
`findFirst` by `originalUrl`; reuse its `shortId`, else allocate with
`createUrlWithUniqueShortId(originalUrl, 8, 6)`; store
`BASE_URL + "/r/" + shortId` in the request map.  A failed allocation
aborts the whole pass. -/
def resolvePass (base : String) (ids : Nat → String) :
    List String → List (String × String) → Store → Nat → List StoreOp →
      ResolveRes
  | [], cache, s, n, log => ⟨cache, s, n, log, none⟩
  | originalUrl :: rest, cache, s, n, log =>
    let existing := findByOriginalUrl s originalUrl
    let log1 := log ++ [.findFirst originalUrl existing]
    match existing with
    | some r =>
      resolvePass base ids rest
        (reqSet cache originalUrl (base ++ "/r/" ++ r.shortId)) s n log1
    | none =>
      let res := createUrlWithUniqueShortId (storeCreate originalUrl) ids n s 6
      let log2 := log1 ++ [.allocCall originalUrl]
      match res.result with
      | .ok shortId =>
        resolvePass base ids rest
          (reqSet cache originalUrl (base ++ "/r/" ++ shortId))
          res.store res.nextId log2
      | .error e => ⟨cache, res.store, res.nextId, log2, some e⟩

/-- Rewrite of one node for one target (source lines 326–334): re-check
qualification, look the value up in the request map, and overwrite the
attribute when the mapped value is truthy (non-empty). -/
def rewriteNodeFor (cache : List (String × String)) (t : String × String)
    (n : Node) : Node :=
  match qualifyingValue t n, n with
  | some h, .element tag attrs =>
    (match reqGet cache h with
     | some shortUrl =>
       if ¬ shortUrl = "" then .element tag (setAttr attrs t.2 shortUrl)
       else .element tag attrs
     | none => .element tag attrs)
  | _, _ => n

/-- Rewrite pass: apply each target's rewrite over the whole document. -/
def rewritePass (cache : List (String × String)) (doc : List Node) :
    List Node :=
  attrTargets.foldl (fun d t => d.map (rewriteNodeFor cache t)) doc

/-- Result of a shorten operation: the response (rewritten document, or
the error that aborted it), the store, and the operation log. -/
structure ShortenRes where
  output : Except AllocErr (List Node)
  store : Store
  log : List StoreOp
deriving DecidableEq

/-- `POST /shorten` core (source lines 276–338): collect qualifying
values (request map pre-filled with falsy placeholders), resolve every
distinct URL, then rewrite; any resolution failure aborts the whole
operation with no document. -/
def shorten (base : String) (ids : Nat → String) (store : Store)
    (doc : List Node) : ShortenRes :=
  let cache0 := (collectPass doc).map (fun u => (u, ""))
  let uniqueUrls := uniqueUrlsOf doc
  let res := resolvePass base ids uniqueUrls cache0 store 0 []
  match res.failure with
  | some e => ⟨.error e, res.store, res.log⟩
  | none => ⟨.ok (rewritePass res.assignments doc), res.store, res.log⟩

/-- Response of `GET /r/:id`. -/
inductive RedirectResp where
  | redirect (url : String)
  | notFound
deriving DecidableEq

/-- `GET /r/:id` (source lines 192–214): consult the cache first; a
cached tombstone answers 404 and a cached value answers a redirect; on
a miss, read the store by `shortId`, populate the cache (tombstone on
absence, value on presence) and answer. -/
def redirectHandler (cfg : CacheConfig) (now : Nat) (store : Store)
    (c : Cache) (id : String) : RedirectResp × Cache :=
  match cacheGet cfg now c id with
  | (some cached, c') =>
    (match cached with
     | none => (.notFound, c')
     | some u => (.redirect u, c'))
  | (none, c') =>
    match findByShortId store id with
    | none => (.notFound, cacheSet cfg now c' id none)
    | some r =>
      (.redirect r.originalUrl, cacheSet cfg now c' id (some r.originalUrl))

/-- Store state in which a concurrent allocation for
`"https://example.com"` has just succeeded under `"abc12345"`. -/
def c1Store : Store :=
  ⟨[⟨"abc12345", "https://example.com"⟩]⟩

/-- Well-formedness of the durable store: `shortId`s are pairwise
distinct (the `@unique` constraint). -/
def StoreWF (s : Store) : Prop :=
  (s.rows.map Row.shortId).Nodup

/-- Log classifier: a `findFirst` lookup for the given URL. -/
def isFindFirstFor (u : String) : StoreOp → Bool
  | .findFirst url _ => decide (url = u)
  | .allocCall _ => false

/-- Log classifier: an allocator call for the given URL. -/
def isAllocCallFor (u : String) : StoreOp → Bool
  | .allocCall url => decide (url = u)
  | .findFirst _ _ => false

/-- Concrete document for the shorten witnesses: the same qualifying
address twice, one image, one `mailto:` link, one bare anchor, one text
node. -/
def wDoc : List Node :=
  [.element "a" [("href", "https://example.com"), ("class", "x")],
   .text "hello",
   .element "a" [("href", "https://example.com")],
   .element "img" [("src", "https://img.example.com/a.png")],
   .element "a" [("href", "mailto:x@y.z")],
   .element "a" []]

/-- Concrete `nanoid` oracle for the shorten witnesses. -/
def wIds : Nat → String :=
  fun n => "sid0000" ++ toString n

/-- The document `wDoc` rewrites to. -/
def wOut : List Node :=
  [.element "a" [("href", "http://localhost:4000/r/sid00000"), ("class", "x")],
   .text "hello",
   .element "a" [("href", "http://localhost:4000/r/sid00000")],
   .element "img" [("src", "http://localhost:4000/r/sid00001")],
   .element "a" [("href", "mailto:x@y.z")],
   .element "a" []]

/-! ## Theorems -/

theorem mem_cacheKeys {c : Cache} {k : String} :
    k ∈ cacheKeys c ↔ ∃ e, (k, e) ∈ c := by
  constructor
  · intro h
    obtain ⟨p, hp, hk⟩ := List.mem_map.mp h
    exact ⟨p.2, by simpa [← hk] using hp⟩
  · rintro ⟨e, he⟩
    exact List.mem_map.mpr ⟨(k, e), he, rfl⟩

theorem not_mem_cacheKeys_mapDelete (c : Cache) (k : String) :
    k ∉ cacheKeys (mapDelete c k) := by
  intro h
  obtain ⟨e, he⟩ := mem_cacheKeys.mp h
  have := List.of_mem_filter he
  simp at this

theorem mapSet_of_not_mem {c : Cache} {k : String} (e : CacheEntry)
    (h : k ∉ cacheKeys c) : mapSet c k e = c ++ [(k, e)] := by
  unfold mapSet
  rw [if_neg]
  intro hany
  obtain ⟨p, hp, hpk⟩ := List.any_eq_true.mp hany
  exact h (mem_cacheKeys.mpr ⟨p.2, by
    have : p.1 = k := by simpa using hpk
    simpa [← this] using hp⟩)

theorem mapSet_of_mem {c : Cache} {k : String} (e : CacheEntry)
    (h : k ∈ cacheKeys c) :
    mapSet c k e = c.map (fun p => if p.1 = k then (k, e) else p) := by
  unfold mapSet
  rw [if_pos]
  obtain ⟨v, hv⟩ := mem_cacheKeys.mp h
  exact List.any_eq_true.mpr ⟨(k, v), hv, by simp⟩

/-- C6.  For a key present in the cache: a `get` whose entry has expired
(`expiresAt ≤ now`) removes the entry and reports a miss; a `get` on a
live entry returns its value, re-inserts the entry at the
most-recently-used end of the recency order, and resets its expiry to
`now` plus the TTL of its kind (negative TTL for tombstones, positive
TTL otherwise) — the expiry slides on every read. -/
theorem c6_cacheGet_spec (cfg : CacheConfig) (now : Nat) (c : Cache)
    (key : String) (e : CacheEntry) (hfind : mapGet c key = some e) :
    (e.expiresAt ≤ now →
      cacheGet cfg now c key = (none, mapDelete c key)) ∧
    (now < e.expiresAt →
      cacheGet cfg now c key =
        (some e.value,
          mapDelete c key ++
            [(key, ⟨e.value,
              now + (if e.value = none then cfg.negTtlMs else cfg.ttlMs)⟩)])) := by
  constructor
  · intro hexp
    unfold cacheGet
    rw [hfind]
    simp [hexp]
  · intro hlive
    unfold cacheGet
    rw [hfind]
    have hne : ¬ e.expiresAt ≤ now := by omega
    simp only [if_neg hne]
    rw [mapSet_of_not_mem _ (not_mem_cacheKeys_mapDelete c key)]

/-- Witness for C6 at a concrete cache state: one expired read and one
live read. -/
theorem c6_cacheGet_spec_witness :
    (cacheGet ⟨1000, 300000, 30000⟩ 100
        [("a", ⟨some "http://x", 50⟩)] "a" =
      (none, mapDelete [("a", ⟨some "http://x", 50⟩)] "a")) ∧
    (cacheGet ⟨1000, 300000, 30000⟩ 100
        [("b", ⟨some "http://y", 150⟩)] "b" =
      (some (some "http://y"),
        mapDelete [("b", ⟨some "http://y", 150⟩)] "b" ++
          [("b", ⟨some "http://y",
            100 + (if (some "http://y" : Option String) = none
                   then 30000 else 300000)⟩)])) := by
  refine ⟨(c6_cacheGet_spec ⟨1000, 300000, 30000⟩ 100
      [("a", ⟨some "http://x", 50⟩)] "a" ⟨some "http://x", 50⟩ (by decide)).1
      (by decide),
    (c6_cacheGet_spec ⟨1000, 300000, 30000⟩ 100
      [("b", ⟨some "http://y", 150⟩)] "b" ⟨some "http://y", 150⟩ (by decide)).2
      (by decide)⟩

/-- Counterexample to C7: with the default configuration, a `set` on the
already-present key `"k1"` updates the value and expiry but leaves the
entry at the least-recently-used head — afterwards the most-recent
(last) key is still `"k2"`, not `"k1"`, refuting "every set places its
entry at the most-recently-used position". -/
theorem c7_counterexample :
    cacheSet ⟨1000, 300000, 30000⟩ 0 c7Cache "k1" (some "v") =
      [("k1", ⟨some "v", 300000⟩), ("k2", ⟨some "u2", 100⟩)] ∧
    (cacheSet ⟨1000, 300000, 30000⟩ 0 c7Cache "k1" (some "v")).getLast?.map
        Prod.fst ≠ some "k1" := by
  constructor
  · rfl
  · decide

/-- C7 as amended.  Every `set` stores expiry
`now + (Tneg if tombstone else Tpos)`.  A `set` on a key not yet in the
cache (when no eviction triggers) appends the entry at the
most-recently-used end; a `set` on an already-present key updates the
value and expiry in place, keeping the key's existing recency
position. -/
theorem c7_amended (cfg : CacheConfig) (now : Nat) (c : Cache)
    (key : String) (value : Option String)
    (hlen : c.length ≤ cfg.maxEntries) :
    (key ∉ cacheKeys c → c.length + 1 ≤ cfg.maxEntries →
      cacheSet cfg now c key value =
        c ++ [(key, ⟨value,
          now + (if value = none then cfg.negTtlMs else cfg.ttlMs)⟩)]) ∧
    (key ∈ cacheKeys c →
      cacheSet cfg now c key value =
        c.map (fun p => if p.1 = key then
          (key, ⟨value,
            now + (if value = none then cfg.negTtlMs else cfg.ttlMs)⟩)
          else p)) := by
  constructor
  · intro hnot hroom
    unfold cacheSet
    dsimp only
    rw [mapSet_of_not_mem _ hnot]
    have : ¬ (c ++ [(key, (⟨value,
        now + (if value = none then cfg.negTtlMs else cfg.ttlMs)⟩ :
          CacheEntry))]).length > cfg.maxEntries := by
      simp only [List.length_append, List.length_singleton]
      omega
    simp only [if_neg this]
  · intro hmem
    unfold cacheSet
    dsimp only
    rw [mapSet_of_mem _ hmem]
    have : ¬ (c.map (fun p => if p.1 = key then
        (key, (⟨value,
          now + (if value = none then cfg.negTtlMs else cfg.ttlMs)⟩ :
            CacheEntry)) else p)).length > cfg.maxEntries := by
      simp only [List.length_map]
      omega
    simp only [if_neg this]

/-- Witness for C7's amended statement: a fresh-key `set` lands at the
most-recent end; a `set` on the present key `"k1"` rewrites it in
place. -/
theorem c7_amended_witness :
    (cacheSet ⟨1000, 300000, 30000⟩ 0 c7Cache "k3" (some "v") =
      c7Cache ++ [("k3", ⟨some "v",
        0 + (if (some "v" : Option String) = none then 30000 else 300000)⟩)]) ∧
    (cacheSet ⟨1000, 300000, 30000⟩ 0 c7Cache "k1" (some "v") =
      c7Cache.map (fun p => if p.1 = "k1" then
        ("k1", ⟨some "v",
          0 + (if (some "v" : Option String) = none then 30000 else 300000)⟩)
        else p)) :=
  ⟨(c7_amended ⟨1000, 300000, 30000⟩ 0 c7Cache "k3" (some "v")
      (by decide)).1 (by decide) (by decide),
    (c7_amended ⟨1000, 300000, 30000⟩ 0 c7Cache "k1" (some "v")
      (by decide)).2 (by decide)⟩

theorem listStartsWith_iff (s p : List Char) :
    listStartsWith s p = true ↔ s.take p.length = p := by
  induction p generalizing s with
  | nil => simp [listStartsWith]
  | cons b bs ih =>
    cases s with
    | nil => simp [listStartsWith]
    | cons a as =>
      simp [listStartsWith, ih]

/-- Two string prefixes that disagree on their common initial segment
cannot both be prefixes of the same string. -/
theorem startsWith_incompat {l p q : List Char} (hlen : p.length ≤ q.length)
    (hq : listStartsWith l q = true) (hne : q.take p.length ≠ p) :
    ¬ listStartsWith l p = true := by
  intro hp
  apply hne
  have h1 := (listStartsWith_iff l q).mp hq
  have h2 := (listStartsWith_iff l p).mp hp
  calc q.take p.length = (l.take q.length).take p.length := by rw [h1]
    _ = l.take (min p.length q.length) := List.take_take _ _ _
    _ = l.take p.length := by rw [Nat.min_eq_left hlen]
    _ = p := h2

/-- C4.  An attribute value qualifies for shortening exactly when it is
present and, after trimming whitespace and lowercasing, begins with
`http://` or `https://`; in particular absent, empty, `mailto:`, `tel:`,
`javascript:`, `#` and other-scheme values never qualify. -/
theorem c4_isShortenable_spec (v : Option String) :
    isShortenable v = true ↔
      ∃ s, v = some s ∧
        (jsStartsWith (jsToLower (jsTrim s)) "http://" = true ∨
          jsStartsWith (jsToLower (jsTrim s)) "https://" = true) := by
  cases v with
  | none => simp [isShortenable]
  | some s =>
    constructor
    · intro h
      refine ⟨s, rfl, ?_⟩
      simp only [isShortenable] at h
      split_ifs at h with h0 h1 h2 h3 h4
      rw [Bool.or_eq_true] at h
      exact h
    · rintro ⟨s', hs, hor⟩
      rw [Option.some.injEq] at hs
      subst hs
      have hne : ¬ s = "" := by
        intro heq
        subst heq
        rcases hor with h | h <;> exact absurd h (by decide)
      simp only [jsStartsWith] at hor
      have hm : ¬ listStartsWith (jsToLower (jsTrim s)).data "mailto:".data
          = true := by
        rcases hor with h | h
        · exact @startsWith_incompat (jsToLower (jsTrim s)).data
            "mailto:".data "http://".data (by decide) h (by decide)
        · exact @startsWith_incompat (jsToLower (jsTrim s)).data
            "mailto:".data "https://".data (by decide) h (by decide)
      have ht : ¬ listStartsWith (jsToLower (jsTrim s)).data "tel:".data
          = true := by
        rcases hor with h | h
        · exact @startsWith_incompat (jsToLower (jsTrim s)).data
            "tel:".data "http://".data (by decide) h (by decide)
        · exact @startsWith_incompat (jsToLower (jsTrim s)).data
            "tel:".data "https://".data (by decide) h (by decide)
      have hj : ¬ listStartsWith (jsToLower (jsTrim s)).data
          "javascript:".data = true := by
        intro hjs
        rcases hor with h | h
        · exact @startsWith_incompat (jsToLower (jsTrim s)).data
            "http://".data "javascript:".data (by decide) hjs (by decide) h
        · exact @startsWith_incompat (jsToLower (jsTrim s)).data
            "https://".data "javascript:".data (by decide) hjs (by decide) h
      have hh : ¬ listStartsWith (jsToLower (jsTrim s)).data "#".data
          = true := by
        rcases hor with h | h
        · exact @startsWith_incompat (jsToLower (jsTrim s)).data
            "#".data "http://".data (by decide) h (by decide)
        · exact @startsWith_incompat (jsToLower (jsTrim s)).data
            "#".data "https://".data (by decide) h (by decide)
      simp only [isShortenable, jsStartsWith]
      rw [if_neg hne]
      simp only [if_neg hm, if_neg ht, if_neg hj, if_neg hh]
      rw [Bool.or_eq_true]
      exact hor

/-- Witness for C4 at concrete values: a mixed-case padded `https` URL
qualifies; `mailto:` and absent values do not. -/
theorem c4_isShortenable_spec_witness :
    isShortenable (some "  HTTPS://Example.COM/a  ") = true ∧
    ¬ isShortenable (some "mailto:x@y.z") = true ∧
    ¬ isShortenable none = true := by
  refine ⟨(c4_isShortenable_spec (some "  HTTPS://Example.COM/a  ")).mpr
      ⟨"  HTTPS://Example.COM/a  ", rfl, Or.inr (by decide)⟩, ?_, ?_⟩
  · intro h
    obtain ⟨s, hs, hor⟩ := (c4_isShortenable_spec (some "mailto:x@y.z")).mp h
    rw [Option.some.injEq] at hs
    subst hs
    rcases hor with h' | h' <;> exact absurd h' (by decide)
  · intro h
    obtain ⟨s, hs, _⟩ := (c4_isShortenable_spec none).mp h
    exact Option.noConfusion hs

theorem createLoop_ok {create : Nat → String → Store → Except PrismaError Store}
    {ids : Nat → String} {n : Nat} {s s' : Store} (fuel : Nat)
    (last : Option PrismaError) (hok : create n (ids n) s = .ok s') :
    createLoop create ids n (fuel + 1) s last = ⟨.ok (ids n), s', n + 1⟩ := by
  simp only [createLoop, hok]

theorem createLoop_retry {create : Nat → String → Store → Except PrismaError Store}
    {ids : Nat → String} {n : Nat} {s : Store} {e : PrismaError} (fuel : Nat)
    (last : Option PrismaError) (hre : create n (ids n) s = .error e)
    (hr : p2002Retryable e = true) :
    createLoop create ids n (fuel + 1) s last =
      createLoop create ids (n + 1) fuel s (some e) := by
  simp only [createLoop, hre, hr, if_true]

theorem createLoop_throw {create : Nat → String → Store → Except PrismaError Store}
    {ids : Nat → String} {n : Nat} {s : Store} {e : PrismaError} (fuel : Nat)
    (last : Option PrismaError) (hre : create n (ids n) s = .error e)
    (hr : p2002Retryable e = false) :
    createLoop create ids n (fuel + 1) s last =
      ⟨.error (.storeError e), s, n + 1⟩ := by
  simp only [createLoop, hre, hr, if_false, Bool.false_eq_true]

/-- Exhaustion: when every one of `fuel > 0` attempts fails with a
retryable collision, the loop rethrows the last collision error and the
store is untouched. -/
theorem createLoop_exhaust
    {create : Nat → String → Store → Except PrismaError Store}
    {ids : Nat → String} (fuel : Nat) :
    ∀ (n : Nat) (s : Store) (e : Nat → PrismaError),
      (∀ i, i < fuel → create (n + i) (ids (n + i)) s = .error (e i) ∧
        p2002Retryable (e i) = true) →
      0 < fuel →
      ∀ last, createLoop create ids n fuel s last =
        ⟨.error (.storeError (e (fuel - 1))), s, n + fuel⟩ := by
  induction fuel with
  | zero => intro n s e _ hpos; omega
  | succ f ih =>
    intro n s e h hpos last
    have h0 := h 0 (by omega)
    have h0c : create n (ids n) s = .error (e 0) := by
      simpa using h0.1
    rw [createLoop_retry f last h0c h0.2]
    rcases Nat.eq_zero_or_pos f with hf | hf
    · subst hf
      simp [createLoop]
    · have hstep := ih (n + 1) s (fun i => e (i + 1)) ?_ hf (some (e 0))
      · rw [hstep]
        have e1 : f - 1 + 1 = f := by omega
        have e2 : f + 1 - 1 = f := by omega
        have e3 : n + 1 + f = n + (f + 1) := by omega
        rw [e1, e2, e3]
      · intro i hi
        have := h (i + 1) (by omega)
        have e4 : n + (i + 1) = n + 1 + i := by omega
        rw [e4] at this
        exact this

/-- C1 evaluated at the failing input: `create` is rejected with a
`P2002` on `originalUrl`, and `createUrlWithUniqueShortId` rethrows the
error instead of re-fetching the mapping and returning `"abc12345"`. -/
theorem c1_originalUrl_conflict_is_rethrown :
    (createUrlWithUniqueShortId (storeCreate "https://example.com")
        (fun _ => "zzzzzzzz") 0 c1Store 5).result =
      .error (.storeError (.known "P2002" (.arr ["originalUrl"]))) ∧
    ¬ (createUrlWithUniqueShortId (storeCreate "https://example.com")
        (fun _ => "zzzzzzzz") 0 c1Store 5).result = .ok "abc12345" := by
  constructor
  · rfl
  · decide

/-- C10.  A uniqueness-violation error whose normalised target metadata
is empty (absent target, empty array, or empty string) is treated as a
shortId collision: the candidate is discarded and the loop retries with
the next generated identifier, consuming one attempt — with two or more
attempts of budget the allocation succeeds with the second candidate,
while with a budget of one the consumed attempt exhausts it. -/
theorem c10_metadata_less_violation_retries
    (create : Nat → String → Store → Except PrismaError Store)
    (ids : Nat → String) (s s' : Store) (t : P2002Target) (m : Nat)
    (hnorm : normTargets t = [])
    (h0 : create 0 (ids 0) s = .error (.known "P2002" t))
    (h1 : create 1 (ids 1) s = .ok s') :
    (createUrlWithUniqueShortId create ids 0 s (m + 2)).result =
      .ok (ids 1) ∧
    (createUrlWithUniqueShortId create ids 0 s 1).result =
      .error (.storeError (.known "P2002" t)) := by
  have hretry : p2002Retryable (.known "P2002" t) = true := by
    simp [p2002Retryable, hnorm]
  constructor
  · show (createLoop create ids 0 (m + 1 + 1) s none).result = .ok (ids 1)
    rw [createLoop_retry (m + 1) none h0 hretry,
      createLoop_ok m (some (.known "P2002" t)) h1]
  · show (createLoop create ids 0 (0 + 1) s none).result =
      .error (.storeError (.known "P2002" t))
    rw [createLoop_retry 0 none h0 hretry]
    simp [createLoop]

/-- Witness for C10: an oracle store whose first `create` call fails
with a `P2002` carrying no target metadata and whose second succeeds. -/
theorem c10_metadata_less_violation_retries_witness :
    ((createUrlWithUniqueShortId
        (fun n sid st => if n = 0 then .error (.known "P2002" .absent)
          else storeCreate "https://u.example" n sid st)
        (fun n => "cand000" ++ toString n) 0 ⟨[]⟩ 2).result =
      .ok ((fun n => "cand000" ++ toString n) 1)) ∧
    ((createUrlWithUniqueShortId
        (fun n sid st => if n = 0 then .error (.known "P2002" .absent)
          else storeCreate "https://u.example" n sid st)
        (fun n => "cand000" ++ toString n) 0 ⟨[]⟩ 1).result =
      .error (.storeError (.known "P2002" P2002Target.absent))) :=
  c10_metadata_less_violation_retries
    (fun n sid st => if n = 0 then .error (.known "P2002" .absent)
      else storeCreate "https://u.example" n sid st)
    (fun n => "cand000" ++ toString n) ⟨[]⟩ ⟨[⟨"cand0001", "https://u.example"⟩]⟩
    P2002Target.absent 0 (by decide) (by decide) (by decide)

/-- Skipping a block of retryable collisions: the loop proceeds from the
`k`-th candidate with `k` attempts of budget consumed. -/
theorem createLoop_skip
    {create : Nat → String → Store → Except PrismaError Store}
    {ids : Nat → String} (k : Nat) :
    ∀ (n fuel : Nat) (s : Store) (e : Nat → PrismaError)
      (last : Option PrismaError),
      (∀ i, i < k → create (n + i) (ids (n + i)) s = .error (e i) ∧
        p2002Retryable (e i) = true) →
      k < fuel →
      ∃ last', createLoop create ids n fuel s last =
        createLoop create ids (n + k) (fuel - k) s last' := by
  induction k with
  | zero =>
    intro n fuel s e last _ _
    exact ⟨last, by rw [Nat.add_zero, Nat.sub_zero]⟩
  | succ j ih =>
    intro n fuel s e last h hlt
    obtain ⟨f, rfl⟩ : ∃ f, fuel = f + 1 := ⟨fuel - 1, by omega⟩
    have h0 := h 0 (by omega)
    have h0c : create n (ids n) s = .error (e 0) := by simpa using h0.1
    rw [createLoop_retry f last h0c h0.2]
    have hco : ∀ i, i < j →
        create (n + 1 + i) (ids (n + 1 + i)) s = .error (e (i + 1)) ∧
          p2002Retryable (e (i + 1)) = true := by
      intro i hi
      have := h (i + 1) (by omega)
      have e3 : n + (i + 1) = n + 1 + i := by omega
      rw [e3] at this
      exact this
    obtain ⟨last', hrec⟩ := ih (n + 1) f s (fun i => e (i + 1))
      (some (e 0)) hco (by omega)
    refine ⟨last', ?_⟩
    have e1 : n + 1 + j = n + (j + 1) := by omega
    have e2 : f - j = f + 1 - (j + 1) := by omega
    rw [e1, e2] at hrec
    exact hrec

/-- C8.  (i) If the first `k < maxAttempts` create attempts collide on
`shortId` and attempt `k` succeeds, allocation returns the final
candidate `ids k` (and the store holds the row that attempt created).
(ii) If all `maxAttempts` attempts collide, allocation fails — the last
collision error is rethrown — and the store is unchanged: no row is
created.  (iii) Any resolution failure aborts the whole shorten
operation: its response is that error, not a partial document.
(iv) Through the shorten path (budget 6): a document whose single
distinct URL is unknown to the store, with all six candidates
colliding, yields the aborted operation and an unchanged store. -/
theorem c8_collision_retry_and_exhaustion :
    (∀ (create : Nat → String → Store → Except PrismaError Store)
        (ids : Nat → String) (s s' : Store) (k maxAttempts : Nat),
      k < maxAttempts →
      (∀ i, i < k → create i (ids i) s =
        .error (.known "P2002" (.arr ["shortId"]))) →
      create k (ids k) s = .ok s' →
      (createUrlWithUniqueShortId create ids 0 s maxAttempts).result =
          .ok (ids k) ∧
        (createUrlWithUniqueShortId create ids 0 s maxAttempts).store = s') ∧
    (∀ (create : Nat → String → Store → Except PrismaError Store)
        (ids : Nat → String) (s : Store) (maxAttempts : Nat),
      0 < maxAttempts →
      (∀ i, i < maxAttempts → create i (ids i) s =
        .error (.known "P2002" (.arr ["shortId"]))) →
      (createUrlWithUniqueShortId create ids 0 s maxAttempts).result =
          .error (.storeError (.known "P2002" (.arr ["shortId"]))) ∧
        (createUrlWithUniqueShortId create ids 0 s maxAttempts).store = s) ∧
    (∀ (base : String) (ids : Nat → String) (store : Store)
        (doc : List Node) (e : AllocErr),
      (resolvePass base ids (uniqueUrlsOf doc)
          ((collectPass doc).map (fun u => (u, ""))) store 0 []).failure =
        some e →
      (shorten base ids store doc).output = .error e) ∧
    (∀ (base : String) (ids : Nat → String) (store : Store)
        (doc : List Node) (u : String),
      uniqueUrlsOf doc = [u] →
      findByOriginalUrl store u = none →
      (∀ i, i < 6 →
        store.rows.any (fun r => decide (r.shortId = ids i)) = true) →
      (shorten base ids store doc).output =
          .error (.storeError (.known "P2002" (.arr ["shortId"]))) ∧
        (shorten base ids store doc).store = store) := by
  have hretry : p2002Retryable (.known "P2002" (.arr ["shortId"])) = true := by
    decide
  have hexhaust : ∀ (create : Nat → String → Store →
      Except PrismaError Store) (ids : Nat → String) (s : Store)
      (maxAttempts : Nat), 0 < maxAttempts →
      (∀ i, i < maxAttempts → create i (ids i) s =
        .error (.known "P2002" (.arr ["shortId"]))) →
      createUrlWithUniqueShortId create ids 0 s maxAttempts =
        ⟨.error (.storeError (.known "P2002" (.arr ["shortId"]))), s,
          maxAttempts⟩ := by
    intro create ids s maxAttempts hpos hcoll
    unfold createUrlWithUniqueShortId
    have := createLoop_exhaust maxAttempts 0 s
      (fun _ => (.known "P2002" (.arr ["shortId"])))
      (fun i hi => ⟨by simpa using hcoll i hi, hretry⟩) hpos none
    rw [this]
    simp
  refine ⟨?_, ?_, ?_, ?_⟩
  · intro create ids s s' k maxAttempts hlt hcoll hok
    unfold createUrlWithUniqueShortId
    obtain ⟨last', hskip⟩ := createLoop_skip k 0 maxAttempts s
      (fun _ => (.known "P2002" (.arr ["shortId"]))) none
      (fun i hi => ⟨by simpa using hcoll i hi, hretry⟩) hlt
    rw [hskip]
    obtain ⟨f, hf⟩ : ∃ f, maxAttempts - k = f + 1 := ⟨maxAttempts - k - 1, by omega⟩
    rw [hf, Nat.zero_add,
      createLoop_ok f last' hok]
    exact ⟨rfl, rfl⟩
  · intro create ids s maxAttempts hpos hcoll
    rw [hexhaust create ids s maxAttempts hpos hcoll]
    exact ⟨rfl, rfl⟩
  · intro base ids store doc e h
    unfold shorten
    dsimp only
    rw [h]
  · intro base ids store doc u huniq hfind hcoll
    have hcreate : createUrlWithUniqueShortId (storeCreate u) ids 0 store 6 =
        ⟨.error (.storeError (.known "P2002" (.arr ["shortId"]))), store,
          6⟩ := by
      refine hexhaust (storeCreate u) ids store 6 (by omega) ?_
      intro i hi
      unfold storeCreate
      rw [if_pos]
      exact hcoll i hi
    have hres : resolvePass base ids (uniqueUrlsOf doc)
        ((collectPass doc).map (fun u => (u, ""))) store 0 [] =
        ⟨(collectPass doc).map (fun u => (u, "")), store, 6,
          [.findFirst u none, .allocCall u],
          some (.storeError (.known "P2002" (.arr ["shortId"])))⟩ := by
      rw [huniq]
      unfold resolvePass
      dsimp only
      rw [hfind]
      dsimp only
      rw [hcreate]
      rfl
    unfold shorten
    dsimp only
    rw [hres]
    exact ⟨rfl, rfl⟩

/-- Witness for C8 at concrete inputs: one collision then success
returns the second candidate; six collisions exhaust the budget and
leave the store unchanged; the exhausted allocation aborts the shorten
of a one-link document. -/
theorem c8_collision_retry_and_exhaustion_witness :
    ((createUrlWithUniqueShortId (storeCreate "https://new.example")
        (fun n => if n = 0 then "taken000" else "fresh000") 0
        ⟨[⟨"taken000", "https://old.example"⟩]⟩ 6).result =
      .ok ((fun n => if n = 0 then "taken000" else "fresh000") 1)) ∧
    ((createUrlWithUniqueShortId (storeCreate "https://new.example")
        (fun _ => "taken000") 0
        ⟨[⟨"taken000", "https://old.example"⟩]⟩ 6).result =
        .error (.storeError (.known "P2002" (.arr ["shortId"]))) ∧
      (createUrlWithUniqueShortId (storeCreate "https://new.example")
        (fun _ => "taken000") 0
        ⟨[⟨"taken000", "https://old.example"⟩]⟩ 6).store =
        ⟨[⟨"taken000", "https://old.example"⟩]⟩) ∧
    ((shorten "http://localhost:4000" (fun _ => "taken000")
        ⟨[⟨"taken000", "https://old.example"⟩]⟩
        [.element "a" [("href", "https://new.example")]]).output =
      .error (.storeError (.known "P2002" (.arr ["shortId"])))) ∧
    ((shorten "http://localhost:4000" (fun _ => "taken000")
        ⟨[⟨"taken000", "https://old.example"⟩]⟩
        [.element "a" [("href", "https://new.example")]]).store =
      ⟨[⟨"taken000", "https://old.example"⟩]⟩) := by
  refine ⟨(c8_collision_retry_and_exhaustion.1
      (storeCreate "https://new.example")
      (fun n => if n = 0 then "taken000" else "fresh000")
      ⟨[⟨"taken000", "https://old.example"⟩]⟩
      ⟨[⟨"taken000", "https://old.example"⟩,
        ⟨"fresh000", "https://new.example"⟩]⟩ 1 6 (by omega) ?_ (by decide)).1,
    ⟨?_, ?_⟩, ?_, ?_⟩
  · intro i hi
    have : i = 0 := by omega
    subst this
    decide
  · exact (c8_collision_retry_and_exhaustion.2.1
      (storeCreate "https://new.example") (fun _ => "taken000")
      ⟨[⟨"taken000", "https://old.example"⟩]⟩ 6 (by omega)
      (fun i _ => by rfl)).1
  · exact (c8_collision_retry_and_exhaustion.2.1
      (storeCreate "https://new.example") (fun _ => "taken000")
      ⟨[⟨"taken000", "https://old.example"⟩]⟩ 6 (by omega)
      (fun i _ => by rfl)).2
  · exact (c8_collision_retry_and_exhaustion.2.2.2 "http://localhost:4000"
      (fun _ => "taken000") ⟨[⟨"taken000", "https://old.example"⟩]⟩
      [.element "a" [("href", "https://new.example")]] "https://new.example"
      (by decide) (by decide) (fun i _ => by rfl)).1
  · exact (c8_collision_retry_and_exhaustion.2.2.2 "http://localhost:4000"
      (fun _ => "taken000") ⟨[⟨"taken000", "https://old.example"⟩]⟩
      [.element "a" [("href", "https://new.example")]] "https://new.example"
      (by decide) (by decide) (fun i _ => by rfl)).2

theorem contains_iff_mem {l : List String} {a : String} :
    l.contains a = true ↔ a ∈ l :=
  List.elem_iff

theorem reqGet_reqSet_self (m : List (String × String)) (k v : String) :
    reqGet (reqSet m k v) k = some v := by
  unfold reqSet reqGet
  by_cases hm : m.any (fun q => decide (q.1 = k)) = true
  · rw [if_pos hm, List.find?_map]
    have hpred : ((fun (p : String × String) => decide (p.1 = k)) ∘
        (fun p => if p.1 = k then (k, v) else p)) =
        fun (p : String × String) => decide (p.1 = k) := by
      funext q
      by_cases hq : q.1 = k
      · simp [Function.comp, hq]
      · simp [Function.comp, hq]
    rw [hpred]
    obtain ⟨q, hqm, hqk⟩ := List.any_eq_true.mp hm
    cases hf : m.find? (fun p => decide (p.1 = k)) with
    | none =>
      rw [List.find?_eq_none] at hf
      exact absurd hqk (hf q hqm)
    | some q' =>
      have hq'k : q'.1 = k := by simpa using List.find?_some hf
      simp [hq'k]
  · rw [if_neg hm, List.find?_append]
    have hnone : m.find? (fun p => decide (p.1 = k)) = none := by
      rw [List.find?_eq_none]
      intro x hx hpx
      exact hm (List.any_eq_true.mpr ⟨x, hx, hpx⟩)
    rw [hnone]
    simp [List.find?]

theorem reqGet_reqSet_ne (m : List (String × String)) (k v k' : String)
    (h : ¬ k' = k) : reqGet (reqSet m k v) k' = reqGet m k' := by
  unfold reqSet reqGet
  by_cases hm : m.any (fun q => decide (q.1 = k)) = true
  · rw [if_pos hm, List.find?_map]
    have hpred : ((fun (p : String × String) => decide (p.1 = k')) ∘
        (fun p => if p.1 = k then (k, v) else p)) =
        fun (p : String × String) => decide (p.1 = k') := by
      funext q
      by_cases hq : q.1 = k
      · simp only [Function.comp, if_pos hq]
        have h1 : ¬ (k = k') := fun hc => h hc.symm
        have h2 : ¬ (q.1 = k') := by rw [hq]; exact h1
        simp [h1, h2]
      · simp [Function.comp, hq]
    rw [hpred]
    cases hf : m.find? (fun p => decide (p.1 = k')) with
    | none => simp
    | some q' =>
      have hq'k : q'.1 = k' := by simpa using List.find?_some hf
      have hq'ne : ¬ q'.1 = k := by rw [hq'k]; exact h
      simp [hq'ne]
  · rw [if_neg hm, List.find?_append]
    have hsing : List.find? (fun p => decide (p.1 = k')) [(k, v)] = none := by
      rw [List.find?_eq_none]
      intro x hx
      rw [List.mem_singleton] at hx
      subst hx
      simp only [decide_eq_true_eq]
      exact fun hc => h hc.symm
    rw [hsing]
    simp

theorem mem_insertNew {acc : List String} {h u : String} :
    u ∈ insertNew acc h ↔ u ∈ acc ∨ u = h := by
  unfold insertNew
  by_cases hc : acc.contains h
  · rw [if_pos hc]
    constructor
    · exact Or.inl
    · rintro (hu | rfl)
      · exact hu
      · exact contains_iff_mem.mp hc
  · rw [if_neg hc]
    simp

theorem nodup_insertNew {acc : List String} (hn : acc.Nodup)
    (h : String) : (insertNew acc h).Nodup := by
  unfold insertNew
  by_cases hc : acc.contains h
  · rwa [if_pos hc]
  · rw [if_neg hc]
    refine List.Nodup.append hn (List.nodup_singleton h) ?_
    intro x hx hx'
    rw [List.mem_singleton] at hx'
    subst hx'
    exact hc (contains_iff_mem.mpr hx)

/-- One target's scan over the document, as performed by `collectPass`. -/
theorem collect_inner_mem (t : String × String) (doc : List Node) :
    ∀ (acc : List String) (u : String),
      u ∈ doc.foldl (fun acc n =>
          match qualifyingValue t n with
          | some h => insertNew acc h
          | none => acc) acc ↔
        u ∈ acc ∨ ∃ nd ∈ doc, qualifyingValue t nd = some u := by
  induction doc with
  | nil => simp
  | cons nd doc ih =>
    intro acc u
    rw [List.foldl_cons, ih]
    cases hq : qualifyingValue t nd with
    | none =>
      simp only [hq]
      constructor
      · rintro (h | ⟨nd', hnd', h2⟩)
        · exact Or.inl h
        · exact Or.inr ⟨nd', List.mem_cons_of_mem _ hnd', h2⟩
      · rintro (h | ⟨nd', hnd', h2⟩)
        · exact Or.inl h
        · rcases List.mem_cons.mp hnd' with rfl | hm
          · rw [hq] at h2; exact absurd h2 (by simp)
          · exact Or.inr ⟨nd', hm, h2⟩
    | some h =>
      simp only [hq, mem_insertNew]
      constructor
      · rintro ((hu | rfl) | ⟨nd', hnd', h2⟩)
        · exact Or.inl hu
        · exact Or.inr ⟨nd, by simp, hq⟩
        · exact Or.inr ⟨nd', by simp [hnd'], h2⟩
      · rintro (hu | ⟨nd', hnd', h2⟩)
        · exact Or.inl (Or.inl hu)
        · rcases List.mem_cons.mp hnd' with rfl | hm
          · rw [hq] at h2
            exact Or.inl (Or.inr (by injection h2.symm))
          · exact Or.inr ⟨nd', hm, h2⟩

theorem collect_inner_nodup (t : String × String) (doc : List Node) :
    ∀ (acc : List String), acc.Nodup →
      (doc.foldl (fun acc n =>
          match qualifyingValue t n with
          | some h => insertNew acc h
          | none => acc) acc).Nodup := by
  induction doc with
  | nil => intro acc h; exact h
  | cons nd doc ih =>
    intro acc h
    rw [List.foldl_cons]
    cases hq : qualifyingValue t nd with
    | none => simpa [hq] using ih acc h
    | some v => simpa [hq] using ih _ (nodup_insertNew h v)

theorem collectPass_mem (doc : List Node) (u : String) :
    u ∈ collectPass doc ↔
      ∃ t ∈ attrTargets, ∃ nd ∈ doc, qualifyingValue t nd = some u := by
  unfold collectPass
  have main : ∀ (ts : List (String × String)) (acc : List String),
      u ∈ ts.foldl (fun acc t => doc.foldl (fun acc n =>
          match qualifyingValue t n with
          | some h => insertNew acc h
          | none => acc) acc) acc ↔
        u ∈ acc ∨ ∃ t ∈ ts, ∃ nd ∈ doc, qualifyingValue t nd = some u := by
    intro ts
    induction ts with
    | nil => simp
    | cons t ts ih =>
      intro acc
      rw [List.foldl_cons, ih, collect_inner_mem]
      constructor
      · rintro ((h | h) | ⟨t', ht', h2⟩)
        · exact Or.inl h
        · exact Or.inr ⟨t, by simp, h⟩
        · exact Or.inr ⟨t', by simp [ht'], h2⟩
      · rintro (h | ⟨t', ht', h2⟩)
        · exact Or.inl (Or.inl h)
        · rcases List.mem_cons.mp ht' with rfl | hm
          · exact Or.inl (Or.inr h2)
          · exact Or.inr ⟨t', hm, h2⟩
  rw [main]
  simp

theorem collectPass_nodup (doc : List Node) : (collectPass doc).Nodup := by
  unfold collectPass
  have main : ∀ (ts : List (String × String)) (acc : List String),
      acc.Nodup →
      (ts.foldl (fun acc t => doc.foldl (fun acc n =>
          match qualifyingValue t n with
          | some h => insertNew acc h
          | none => acc) acc) acc).Nodup := by
    intro ts
    induction ts with
    | nil => intro acc h; exact h
    | cons t ts ih =>
      intro acc h
      rw [List.foldl_cons]
      exact ih _ (collect_inner_nodup t doc acc h)
  exact main attrTargets [] List.nodup_nil

theorem jsSetDedup_mem (l : List String) (u : String) :
    u ∈ jsSetDedup l ↔ u ∈ l := by
  unfold jsSetDedup
  have main : ∀ (l acc : List String),
      u ∈ l.foldl insertNew acc ↔ u ∈ acc ∨ u ∈ l := by
    intro l
    induction l with
    | nil => simp
    | cons x l ih =>
      intro acc
      rw [List.foldl_cons, ih, mem_insertNew]
      constructor
      · rintro ((h | rfl) | h)
        · exact Or.inl h
        · exact Or.inr (by simp)
        · exact Or.inr (by simp [h])
      · rintro (h | h)
        · exact Or.inl (Or.inl h)
        · rcases List.mem_cons.mp h with rfl | hm
          · exact Or.inl (Or.inr rfl)
          · exact Or.inr hm
  rw [main]
  simp

theorem jsSetDedup_nodup (l : List String) : (jsSetDedup l).Nodup := by
  unfold jsSetDedup
  have main : ∀ (l acc : List String), acc.Nodup →
      (l.foldl insertNew acc).Nodup := by
    intro l
    induction l with
    | nil => intro acc h; exact h
    | cons x l ih =>
      intro acc h
      rw [List.foldl_cons]
      exact ih _ (nodup_insertNew h x)
  exact main l [] List.nodup_nil

theorem uniqueUrlsOf_mem (doc : List Node) (u : String) :
    u ∈ uniqueUrlsOf doc ↔
      ∃ t ∈ attrTargets, ∃ nd ∈ doc, qualifyingValue t nd = some u := by
  rw [uniqueUrlsOf, jsSetDedup_mem, collectPass_mem]

theorem uniqueUrlsOf_nodup (doc : List Node) : (uniqueUrlsOf doc).Nodup :=
  jsSetDedup_nodup _

theorem qualifyingValue_shortenable {t : String × String} {nd : Node}
    {u : String} (h : qualifyingValue t nd = some u) :
    isShortenable (some u) = true := by
  cases nd with
  | text s => simp [qualifyingValue] at h
  | element tag attrs =>
    simp only [qualifyingValue] at h
    by_cases htag : tag = t.1
    · rw [if_pos htag] at h
      cases hg : getAttr attrs t.2 with
      | none => rw [hg] at h; simp at h
      | some v =>
        rw [hg] at h
        dsimp only at h
        by_cases hs : isShortenable (some v) = true
        · rw [if_pos hs] at h
          obtain rfl : v = u := by injection h
          exact hs
        · rw [if_neg hs] at h
          simp at h
    · rw [if_neg htag] at h
      simp at h

theorem findByOriginalUrl_some {s : Store} {u : String} {r : Row}
    (h : findByOriginalUrl s u = some r) :
    r ∈ s.rows ∧ r.originalUrl = u := by
  unfold findByOriginalUrl at h
  exact ⟨List.mem_of_find?_eq_some h, by simpa using List.find?_some h⟩

theorem find_shortId_of_mem :
    ∀ (l : List Row), (l.map Row.shortId).Nodup → ∀ r ∈ l,
      l.find? (fun x => decide (x.shortId = r.shortId)) = some r := by
  intro l
  induction l with
  | nil => intro _ r hr; exact absurd hr (List.not_mem_nil r)
  | cons a l ih =>
    intro hn r hr
    rw [List.map_cons, List.nodup_cons] at hn
    rcases List.mem_cons.mp hr with rfl | hm
    · simp [List.find?_cons]
    · have hne : ¬ a.shortId = r.shortId := fun hc =>
        hn.1 (hc ▸ List.mem_map_of_mem Row.shortId hm)
      have hd : decide (a.shortId = r.shortId) = false := by simpa using hne
      rw [List.find?_cons, hd]
      exact ih hn.2 r hm

theorem findByShortId_of_mem {s : Store} (hwf : StoreWF s) {r : Row}
    (hr : r ∈ s.rows) : findByShortId s r.shortId = some r :=
  find_shortId_of_mem s.rows hwf r hr

theorem findByShortId_extend {s : Store} (ext : List Row) {sid : String}
    {r : Row} (h : findByShortId s sid = some r) :
    findByShortId ⟨s.rows ++ ext⟩ sid = some r := by
  unfold findByShortId at h ⊢
  rw [List.find?_append, h]
  rfl

theorem storeWF_append {s : Store} {r : Row} (hwf : StoreWF s)
    (hfresh : s.rows.any (fun x => decide (x.shortId = r.shortId)) = false) :
    StoreWF ⟨s.rows ++ [r]⟩ := by
  unfold StoreWF at hwf ⊢
  rw [List.map_append, List.map_singleton]
  refine List.Nodup.append hwf (List.nodup_singleton _) ?_
  intro x hx hx'
  rw [List.mem_singleton] at hx'
  subst hx'
  obtain ⟨y, hy, hyx⟩ := List.mem_map.mp hx
  have : (s.rows.any (fun x => decide (x.shortId = r.shortId))) = true :=
    List.any_eq_true.mpr ⟨y, hy, by simpa using hyx⟩
  rw [hfresh] at this
  exact absurd this (by simp)

/-- Postconditions of the allocator loop run against the durable store's
`create` for a fixed `originalUrl`: a successful allocation appends
exactly the one new row (whose `shortId` and `originalUrl` were fresh),
and a failed allocation leaves the store untouched. -/
theorem createLoop_storeCreate {url : String} {ids : Nat → String}
    (fuel : Nat) :
    ∀ (n : Nat) (s : Store) (last : Option PrismaError),
      (∀ sid,
        (createLoop (storeCreate url) ids n fuel s last).result = .ok sid →
        (createLoop (storeCreate url) ids n fuel s last).store =
            ⟨s.rows ++ [⟨sid, url⟩]⟩ ∧
          s.rows.any (fun x => decide (x.shortId = sid)) = false ∧
          s.rows.any (fun x => decide (x.originalUrl = url)) = false) ∧
      (∀ e,
        (createLoop (storeCreate url) ids n fuel s last).result = .error e →
        (createLoop (storeCreate url) ids n fuel s last).store = s) := by
  induction fuel with
  | zero =>
    intro n s last
    constructor
    · intro sid h
      simp [createLoop] at h
    · intro e _
      rfl
  | succ fuel ih =>
    intro n s last
    by_cases h1 : s.rows.any (fun x => decide (x.shortId = ids n)) = true
    · have hsc : storeCreate url n (ids n) s =
          .error (.known "P2002" (.arr ["shortId"])) := by
        unfold storeCreate
        rw [if_pos h1]
      rw [createLoop_retry fuel last hsc (by decide)]
      exact ih (n + 1) s (some (.known "P2002" (.arr ["shortId"])))
    · have h1f : s.rows.any (fun x => decide (x.shortId = ids n)) = false := by
        simpa using h1
      by_cases h2 : s.rows.any (fun x => decide (x.originalUrl = url)) = true
      · have hsc : storeCreate url n (ids n) s =
            .error (.known "P2002" (.arr ["originalUrl"])) := by
          unfold storeCreate
          rw [if_neg h1, if_pos h2]
        rw [createLoop_throw fuel last hsc (by decide)]
        constructor
        · intro sid h
          simp at h
        · intro e _
          rfl
      · have h2f : s.rows.any (fun x => decide (x.originalUrl = url)) =
            false := by simpa using h2
        have hsc : storeCreate url n (ids n) s =
            .ok ⟨s.rows ++ [⟨ids n, url⟩]⟩ := by
          unfold storeCreate
          rw [if_neg h1, if_neg h2]
        rw [createLoop_ok fuel last hsc]
        constructor
        · intro sid h
          obtain rfl : ids n = sid := by simpa using h
          exact ⟨rfl, h1f, h2f⟩
        · intro e h
          simp at h

theorem createLoop_storeCreate_extends {url : String} {ids : Nat → String}
    {fuel n : Nat} {s : Store} {last : Option PrismaError} :
    ∃ ext, (createLoop (storeCreate url) ids n fuel s last).store.rows =
      s.rows ++ ext := by
  cases hres : (createLoop (storeCreate url) ids n fuel s last).result with
  | ok sid =>
    refine ⟨[⟨sid, url⟩], ?_⟩
    rw [((createLoop_storeCreate fuel n s last).1 sid hres).1]
  | error e =>
    refine ⟨[], ?_⟩
    rw [(createLoop_storeCreate fuel n s last).2 e hres, List.append_nil]

theorem createLoop_storeCreate_wf {url : String} {ids : Nat → String}
    {fuel n : Nat} {s : Store} {last : Option PrismaError}
    (hwf : StoreWF s) :
    StoreWF (createLoop (storeCreate url) ids n fuel s last).store := by
  cases hres : (createLoop (storeCreate url) ids n fuel s last).result with
  | ok sid =>
    obtain ⟨hst, hfresh, _⟩ := (createLoop_storeCreate fuel n s last).1 sid hres
    rw [hst]
    exact storeWF_append hwf hfresh
  | error e =>
    rw [(createLoop_storeCreate fuel n s last).2 e hres]
    exact hwf

theorem resolvePass_nil {base : String} {ids : Nat → String}
    {cache : List (String × String)} {s : Store} {n : Nat}
    {log : List StoreOp} :
    resolvePass base ids [] cache s n log = ⟨cache, s, n, log, none⟩ :=
  rfl

theorem resolvePass_cons_existing {base : String} {ids : Nat → String}
    {u : String} {rest : List String} {cache : List (String × String)}
    {s : Store} {n : Nat} {log : List StoreOp} {r : Row}
    (hex : findByOriginalUrl s u = some r) :
    resolvePass base ids (u :: rest) cache s n log =
      resolvePass base ids rest
        (reqSet cache u (base ++ "/r/" ++ r.shortId)) s n
        (log ++ [.findFirst u (some r)]) := by
  conv_lhs => unfold resolvePass
  dsimp only
  rw [hex]

theorem resolvePass_cons_new_ok {base : String} {ids : Nat → String}
    {u : String} {rest : List String} {cache : List (String × String)}
    {s : Store} {n : Nat} {log : List StoreOp} {sid : String}
    (hex : findByOriginalUrl s u = none)
    (hok : (createUrlWithUniqueShortId (storeCreate u) ids n s 6).result =
      .ok sid) :
    resolvePass base ids (u :: rest) cache s n log =
      resolvePass base ids rest
        (reqSet cache u (base ++ "/r/" ++ sid))
        (createUrlWithUniqueShortId (storeCreate u) ids n s 6).store
        (createUrlWithUniqueShortId (storeCreate u) ids n s 6).nextId
        (log ++ [.findFirst u none] ++ [.allocCall u]) := by
  conv_lhs => unfold resolvePass
  dsimp only
  rw [hex]
  dsimp only
  rw [hok]

theorem resolvePass_cons_new_err {base : String} {ids : Nat → String}
    {u : String} {rest : List String} {cache : List (String × String)}
    {s : Store} {n : Nat} {log : List StoreOp} {e : AllocErr}
    (hex : findByOriginalUrl s u = none)
    (herr : (createUrlWithUniqueShortId (storeCreate u) ids n s 6).result =
      .error e) :
    resolvePass base ids (u :: rest) cache s n log =
      ⟨cache, (createUrlWithUniqueShortId (storeCreate u) ids n s 6).store,
        (createUrlWithUniqueShortId (storeCreate u) ids n s 6).nextId,
        log ++ [.findFirst u none] ++ [.allocCall u], some e⟩ := by
  conv_lhs => unfold resolvePass
  dsimp only
  rw [hex]
  dsimp only
  rw [herr]

theorem resolvePass_reqGet_not_mem {base : String} {ids : Nat → String}
    (urls : List String) :
    ∀ (cache : List (String × String)) (s : Store) (n : Nat)
      (log : List StoreOp) (u : String), u ∉ urls →
      reqGet (resolvePass base ids urls cache s n log).assignments u =
        reqGet cache u := by
  induction urls with
  | nil => intro cache s n log u _; rw [resolvePass_nil]
  | cons u0 rest ih =>
    intro cache s n log u hu
    have hne : ¬ u = u0 := fun hc => hu (by
      rw [hc]; exact List.mem_cons_self u0 rest)
    have hrest : u ∉ rest := fun hc => hu (List.mem_cons_of_mem _ hc)
    cases hex : findByOriginalUrl s u0 with
    | some r =>
      rw [resolvePass_cons_existing hex, ih _ _ _ _ _ hrest,
        reqGet_reqSet_ne _ _ _ _ hne]
    | none =>
      cases hres :
          (createUrlWithUniqueShortId (storeCreate u0) ids n s 6).result with
      | ok sid =>
        rw [resolvePass_cons_new_ok hex hres, ih _ _ _ _ _ hrest,
          reqGet_reqSet_ne _ _ _ _ hne]
      | error e =>
        rw [resolvePass_cons_new_err hex hres]

theorem resolvePass_store_extends {base : String} {ids : Nat → String}
    (urls : List String) :
    ∀ (cache : List (String × String)) (s : Store) (n : Nat)
      (log : List StoreOp), ∃ ext,
      (resolvePass base ids urls cache s n log).store.rows =
        s.rows ++ ext := by
  induction urls with
  | nil =>
    intro cache s n log
    exact ⟨[], by rw [resolvePass_nil, List.append_nil]⟩
  | cons u0 rest ih =>
    intro cache s n log
    cases hex : findByOriginalUrl s u0 with
    | some r =>
      rw [resolvePass_cons_existing hex]
      exact ih _ _ _ _
    | none =>
      cases hres :
          (createUrlWithUniqueShortId (storeCreate u0) ids n s 6).result with
      | ok sid =>
        rw [resolvePass_cons_new_ok hex hres]
        obtain ⟨ext1, h1⟩ := @createLoop_storeCreate_extends u0 ids 6 n s none
        obtain ⟨ext2, h2⟩ := ih
          (reqSet cache u0 (base ++ "/r/" ++ sid))
          (createUrlWithUniqueShortId (storeCreate u0) ids n s 6).store
          (createUrlWithUniqueShortId (storeCreate u0) ids n s 6).nextId
          (log ++ [.findFirst u0 none] ++ [.allocCall u0])
        refine ⟨ext1 ++ ext2, ?_⟩
        rw [h2]
        have h1' : (createUrlWithUniqueShortId
            (storeCreate u0) ids n s 6).store.rows = s.rows ++ ext1 := h1
        rw [h1', List.append_assoc]
      | error e =>
        rw [resolvePass_cons_new_err hex hres]
        exact @createLoop_storeCreate_extends u0 ids 6 n s none

theorem resolvePass_wf {base : String} {ids : Nat → String}
    (urls : List String) :
    ∀ (cache : List (String × String)) (s : Store) (n : Nat)
      (log : List StoreOp), StoreWF s →
      StoreWF (resolvePass base ids urls cache s n log).store := by
  induction urls with
  | nil => intro cache s n log hwf; rw [resolvePass_nil]; exact hwf
  | cons u0 rest ih =>
    intro cache s n log hwf
    cases hex : findByOriginalUrl s u0 with
    | some r =>
      rw [resolvePass_cons_existing hex]
      exact ih _ _ _ _ hwf
    | none =>
      cases hres :
          (createUrlWithUniqueShortId (storeCreate u0) ids n s 6).result with
      | ok sid =>
        rw [resolvePass_cons_new_ok hex hres]
        exact ih _ _ _ _ (createLoop_storeCreate_wf hwf)
      | error e =>
        rw [resolvePass_cons_new_err hex hres]
        exact createLoop_storeCreate_wf hwf

/-- Central invariant of the resolution pass: on success, every distinct
URL ends up mapped to `base ++ "/r/" ++ sid` in the request table, for a
`sid` the final store resolves back to that URL. -/
theorem resolvePass_resolves {base : String} {ids : Nat → String}
    (urls : List String) :
    ∀ (cache : List (String × String)) (s : Store) (n : Nat)
      (log : List StoreOp), StoreWF s → urls.Nodup →
      (resolvePass base ids urls cache s n log).failure = none →
      ∀ u ∈ urls, ∃ sid,
        reqGet (resolvePass base ids urls cache s n log).assignments u =
          some (base ++ "/r/" ++ sid) ∧
        findByShortId (resolvePass base ids urls cache s n log).store sid =
          some ⟨sid, u⟩ := by
  induction urls with
  | nil => intro _ _ _ _ _ _ _ u hu; exact absurd hu (List.not_mem_nil u)
  | cons u0 rest ih =>
    intro cache s n log hwf hnd hfail u hu
    obtain ⟨hn0, hndrest⟩ := List.nodup_cons.mp hnd
    cases hex : findByOriginalUrl s u0 with
    | some r =>
      rw [resolvePass_cons_existing hex] at hfail ⊢
      obtain ⟨hrmem, hrurl⟩ := findByOriginalUrl_some hex
      rcases List.mem_cons.mp hu with rfl | hurest
      · refine ⟨r.shortId, ?_, ?_⟩
        · rw [resolvePass_reqGet_not_mem rest _ _ _ _ _ hn0,
            reqGet_reqSet_self]
        · have hr0 : findByShortId s r.shortId = some r :=
            findByShortId_of_mem hwf hrmem
          have hr1 : findByShortId (resolvePass base ids rest
              (reqSet cache u (base ++ "/r/" ++ r.shortId)) s n
              (log ++ [.findFirst u (some r)])).store r.shortId = some r := by
            unfold findByShortId at hr0 ⊢
            obtain ⟨ext', hext'⟩ := resolvePass_store_extends rest
              (reqSet cache u (base ++ "/r/" ++ r.shortId)) s n
              (log ++ [.findFirst u (some r)])
            rw [hext', List.find?_append, hr0]
            rfl
          have hreq : r = ⟨r.shortId, u⟩ := by
            obtain ⟨a, b⟩ := r
            simp only at hrurl
            rw [hrurl]
          rw [← hreq]
          exact hr1
      · exact ih _ _ _ _ hwf hndrest hfail u hurest
    | none =>
      cases hres :
          (createUrlWithUniqueShortId (storeCreate u0) ids n s 6).result with
      | error e =>
        rw [resolvePass_cons_new_err hex hres] at hfail
        exact absurd hfail (by simp)
      | ok sid =>
        rw [resolvePass_cons_new_ok hex hres] at hfail ⊢
        obtain ⟨hst, hfresh, hfreshu⟩ :=
          (createLoop_storeCreate 6 n s none).1 sid hres
        have hwf' : StoreWF (createUrlWithUniqueShortId
            (storeCreate u0) ids n s 6).store := createLoop_storeCreate_wf hwf
        rcases List.mem_cons.mp hu with rfl | hurest
        · refine ⟨sid, ?_, ?_⟩
          · rw [resolvePass_reqGet_not_mem rest _ _ _ _ _ hn0,
              reqGet_reqSet_self]
          · have hst' : (createUrlWithUniqueShortId
                (storeCreate u) ids n s 6).store =
                ⟨s.rows ++ [⟨sid, u⟩]⟩ := hst
            have hmem : (⟨sid, u⟩ : Row) ∈ (createUrlWithUniqueShortId
                (storeCreate u) ids n s 6).store.rows := by
              rw [hst']; simp
            have h1 : findByShortId (createUrlWithUniqueShortId
                (storeCreate u) ids n s 6).store sid = some ⟨sid, u⟩ :=
              findByShortId_of_mem hwf' hmem
            obtain ⟨ext, hext⟩ := resolvePass_store_extends rest
              (reqSet cache u (base ++ "/r/" ++ sid))
              (createUrlWithUniqueShortId (storeCreate u) ids n s 6).store
              (createUrlWithUniqueShortId (storeCreate u) ids n s 6).nextId
              (log ++ [.findFirst u none] ++ [.allocCall u])
            unfold findByShortId at h1 ⊢
            rw [hext, List.find?_append, h1]
            rfl
        · exact ih _ _ _ _ hwf' hndrest hfail u hurest

theorem resolvePass_log_not_mem {base : String} {ids : Nat → String}
    (urls : List String) :
    ∀ (cache : List (String × String)) (s : Store) (n : Nat)
      (log : List StoreOp) (u : String), u ∉ urls →
      ((resolvePass base ids urls cache s n log).log.countP
          (isFindFirstFor u) = log.countP (isFindFirstFor u)) ∧
      ((resolvePass base ids urls cache s n log).log.countP
          (isAllocCallFor u) = log.countP (isAllocCallFor u)) := by
  induction urls with
  | nil => intro cache s n log u _; rw [resolvePass_nil]; exact ⟨rfl, rfl⟩
  | cons u0 rest ih =>
    intro cache s n log u hu
    have hne : ¬ u0 = u := fun hc => hu (by
      rw [← hc]; exact List.mem_cons_self u0 rest)
    have hrest : u ∉ rest := fun hc => hu (List.mem_cons_of_mem _ hc)
    have hff : ∀ found, isFindFirstFor u (.findFirst u0 found) = false := by
      intro found; simpa [isFindFirstFor] using hne
    have hac : isAllocCallFor u (.allocCall u0) = false := by
      simpa [isAllocCallFor] using hne
    cases hex : findByOriginalUrl s u0 with
    | some r =>
      rw [resolvePass_cons_existing hex]
      obtain ⟨h1, h2⟩ := ih
        (reqSet cache u0 (base ++ "/r/" ++ r.shortId)) s n
        (log ++ [.findFirst u0 (some r)]) u hrest
      refine ⟨?_, ?_⟩
      · rw [h1, List.countP_append]
        simp [List.countP_cons, hff (some r), hne]
      · rw [h2, List.countP_append]
        simp [List.countP_cons, hac, isAllocCallFor, hne]
    | none =>
      cases hres :
          (createUrlWithUniqueShortId (storeCreate u0) ids n s 6).result with
      | ok sid =>
        rw [resolvePass_cons_new_ok hex hres]
        obtain ⟨h1, h2⟩ := ih
          (reqSet cache u0 (base ++ "/r/" ++ sid))
          (createUrlWithUniqueShortId (storeCreate u0) ids n s 6).store
          (createUrlWithUniqueShortId (storeCreate u0) ids n s 6).nextId
          (log ++ [.findFirst u0 none] ++ [.allocCall u0]) u hrest
        refine ⟨?_, ?_⟩
        · rw [h1, List.countP_append, List.countP_append]
          simp [List.countP_cons, hff none, isFindFirstFor, hne]
        · rw [h2, List.countP_append, List.countP_append]
          simp [List.countP_cons, hac, hff none, isAllocCallFor,
            isFindFirstFor, hne]
      | error e =>
        rw [resolvePass_cons_new_err hex hres]
        refine ⟨?_, ?_⟩
        · rw [List.countP_append, List.countP_append]
          simp [List.countP_cons, hff none, isFindFirstFor, hne]
        · rw [List.countP_append, List.countP_append]
          simp [List.countP_cons, hac, isAllocCallFor, isFindFirstFor, hne]

/-- Per distinct URL, the successful resolution pass performs exactly one
`findFirst` lookup and at most one allocator call. -/
theorem resolvePass_log_mem {base : String} {ids : Nat → String}
    (urls : List String) :
    ∀ (cache : List (String × String)) (s : Store) (n : Nat)
      (log : List StoreOp), urls.Nodup →
      (resolvePass base ids urls cache s n log).failure = none →
      ∀ u ∈ urls,
        ((resolvePass base ids urls cache s n log).log.countP
            (isFindFirstFor u) = log.countP (isFindFirstFor u) + 1) ∧
        ((resolvePass base ids urls cache s n log).log.countP
            (isAllocCallFor u) ≤ log.countP (isAllocCallFor u) + 1) := by
  induction urls with
  | nil => intro _ _ _ _ _ _ u hu; exact absurd hu (List.not_mem_nil u)
  | cons u0 rest ih =>
    intro cache s n log hnd hfail u hu
    obtain ⟨hn0, hndrest⟩ := List.nodup_cons.mp hnd
    cases hex : findByOriginalUrl s u0 with
    | some r =>
      rw [resolvePass_cons_existing hex] at hfail ⊢
      rcases List.mem_cons.mp hu with rfl | hurest
      · obtain ⟨h1, h2⟩ := resolvePass_log_not_mem rest
          (reqSet cache u (base ++ "/r/" ++ r.shortId)) s n
          (log ++ [.findFirst u (some r)]) u hn0
        refine ⟨?_, ?_⟩
        · rw [h1, List.countP_append]
          simp [List.countP_cons, isFindFirstFor]
        · rw [h2, List.countP_append]
          simp [List.countP_cons, isAllocCallFor]
      · have hne : ¬ u0 = u := fun hc => hn0 (hc ▸ hurest)
        obtain ⟨h1, h2⟩ := ih
          (reqSet cache u0 (base ++ "/r/" ++ r.shortId)) s n
          (log ++ [.findFirst u0 (some r)]) hndrest hfail u hurest
        refine ⟨?_, ?_⟩
        · rw [h1, List.countP_append]
          simp [List.countP_cons, isFindFirstFor, hne]
        · refine le_trans h2 ?_
          rw [List.countP_append]
          simp [List.countP_cons, isAllocCallFor]
    | none =>
      cases hres :
          (createUrlWithUniqueShortId (storeCreate u0) ids n s 6).result with
      | error e =>
        rw [resolvePass_cons_new_err hex hres] at hfail
        exact absurd hfail (by simp)
      | ok sid =>
        rw [resolvePass_cons_new_ok hex hres] at hfail ⊢
        rcases List.mem_cons.mp hu with rfl | hurest
        · obtain ⟨h1, h2⟩ := resolvePass_log_not_mem rest
            (reqSet cache u (base ++ "/r/" ++ sid))
            (createUrlWithUniqueShortId (storeCreate u) ids n s 6).store
            (createUrlWithUniqueShortId (storeCreate u) ids n s 6).nextId
            (log ++ [.findFirst u none] ++ [.allocCall u]) u hn0
          refine ⟨?_, ?_⟩
          · rw [h1, List.countP_append, List.countP_append]
            simp [List.countP_cons, isFindFirstFor, isAllocCallFor]
          · rw [h2, List.countP_append, List.countP_append]
            simp [List.countP_cons, isAllocCallFor, isFindFirstFor]
        · have hne : ¬ u0 = u := fun hc => hn0 (hc ▸ hurest)
          obtain ⟨h1, h2⟩ := ih
            (reqSet cache u0 (base ++ "/r/" ++ sid))
            (createUrlWithUniqueShortId (storeCreate u0) ids n s 6).store
            (createUrlWithUniqueShortId (storeCreate u0) ids n s 6).nextId
            (log ++ [.findFirst u0 none] ++ [.allocCall u0]) hndrest hfail
            u hurest
          refine ⟨?_, ?_⟩
          · rw [h1, List.countP_append, List.countP_append]
            simp [List.countP_cons, isFindFirstFor, isAllocCallFor, hne]
          · refine le_trans h2 ?_
            rw [List.countP_append, List.countP_append]
            simp [List.countP_cons, isAllocCallFor, isFindFirstFor, hne]

theorem rewriteNodeFor_none {cache : List (String × String)}
    {t : String × String} {nd : Node}
    (h : qualifyingValue t nd = none) :
    rewriteNodeFor cache t nd = nd := by
  cases nd with
  | text s => rfl
  | element tag attrs =>
    unfold rewriteNodeFor
    rw [h]

theorem rewriteNodeFor_tag_ne {cache : List (String × String)}
    {t : String × String} {tag : String} {attrs : List (String × String)}
    (h : ¬ tag = t.1) :
    rewriteNodeFor cache t (.element tag attrs) = .element tag attrs := by
  refine rewriteNodeFor_none ?_
  simp only [qualifyingValue]
  rw [if_neg h]

theorem rewriteNodeFor_some_hit {cache : List (String × String)}
    {t : String × String} {tag : String} {attrs : List (String × String)}
    {h v : String}
    (hq : qualifyingValue t (.element tag attrs) = some h)
    (hget : reqGet cache h = some v) (hv : ¬ v = "") :
    rewriteNodeFor cache t (.element tag attrs) =
      .element tag (setAttr attrs t.2 v) := by
  unfold rewriteNodeFor
  rw [hq]
  dsimp only
  rw [hget]
  dsimp only
  rw [if_pos hv]

theorem rewriteNodeFor_element_tag (cache : List (String × String))
    (t : String × String) (tag : String) (attrs : List (String × String)) :
    ∃ attrs', rewriteNodeFor cache t (.element tag attrs) =
      .element tag attrs' := by
  cases hq : qualifyingValue t (.element tag attrs) with
  | none => exact ⟨attrs, rewriteNodeFor_none hq⟩
  | some h =>
    cases hg : reqGet cache h with
    | none =>
      refine ⟨attrs, ?_⟩
      unfold rewriteNodeFor
      rw [hq]
      dsimp only
      rw [hg]
    | some v =>
      by_cases hv : v = ""
      · refine ⟨attrs, ?_⟩
        unfold rewriteNodeFor
        rw [hq]
        dsimp only
        rw [hg]
        dsimp only
        rw [if_neg (not_not_intro hv)]
      · exact ⟨setAttr attrs t.2 v, rewriteNodeFor_some_hit hq hg hv⟩

theorem foldl_map_fusion {α β : Type} (g : β → α → α) (ts : List β) :
    ∀ l : List α, ts.foldl (fun d t => d.map (g t)) l =
      l.map (fun x => ts.foldl (fun x t => g t x) x) := by
  induction ts with
  | nil => intro l; simp
  | cons t ts ih =>
    intro l
    rw [List.foldl_cons, ih, List.map_map]
    simp only [List.foldl_cons]
    rfl

theorem rewritePass_map (cache : List (String × String)) (doc : List Node) :
    rewritePass cache doc =
      doc.map (fun nd =>
        attrTargets.foldl (fun x t => rewriteNodeFor cache t x) nd) := by
  unfold rewritePass
  exact foldl_map_fusion (fun t nd => rewriteNodeFor cache t nd) attrTargets doc

/-- Folding all five targets over one element applies the (unique, if
any) target whose tag matches, and is the identity otherwise. -/
theorem foldTargets_element (cache : List (String × String)) (tag : String)
    (attrs : List (String × String)) :
    attrTargets.foldl (fun x t => rewriteNodeFor cache t x)
        (.element tag attrs) =
      match attrTargets.find? (fun t' => decide (t'.1 = tag)) with
      | some t0 => rewriteNodeFor cache t0 (.element tag attrs)
      | none => .element tag attrs := by
  by_cases h1 : tag = "a"
  · subst h1
    have hf : attrTargets.find? (fun t' => decide (t'.1 = "a")) =
        some ("a", "href") := by decide
    rw [hf]
    obtain ⟨attrs1, hh⟩ := rewriteNodeFor_element_tag cache ("a", "href")
      "a" attrs
    simp only [attrTargets, List.foldl_cons, List.foldl_nil]
    rw [hh, rewriteNodeFor_tag_ne (by decide),
      rewriteNodeFor_tag_ne (by decide), rewriteNodeFor_tag_ne (by decide),
      rewriteNodeFor_tag_ne (by decide)]
  by_cases h2 : tag = "area"
  · subst h2
    have hf : attrTargets.find? (fun t' => decide (t'.1 = "area")) =
        some ("area", "href") := by decide
    rw [hf]
    obtain ⟨attrs1, hh⟩ := rewriteNodeFor_element_tag cache ("area", "href")
      "area" attrs
    simp only [attrTargets, List.foldl_cons, List.foldl_nil]
    rw [rewriteNodeFor_tag_ne (by decide), hh,
      rewriteNodeFor_tag_ne (by decide), rewriteNodeFor_tag_ne (by decide),
      rewriteNodeFor_tag_ne (by decide)]
  by_cases h3 : tag = "link"
  · subst h3
    have hf : attrTargets.find? (fun t' => decide (t'.1 = "link")) =
        some ("link", "href") := by decide
    rw [hf]
    obtain ⟨attrs1, hh⟩ := rewriteNodeFor_element_tag cache ("link", "href")
      "link" attrs
    simp only [attrTargets, List.foldl_cons, List.foldl_nil]
    rw [rewriteNodeFor_tag_ne (by decide), rewriteNodeFor_tag_ne (by decide),
      hh, rewriteNodeFor_tag_ne (by decide), rewriteNodeFor_tag_ne (by decide)]
  by_cases h4 : tag = "img"
  · subst h4
    have hf : attrTargets.find? (fun t' => decide (t'.1 = "img")) =
        some ("img", "src") := by decide
    rw [hf]
    obtain ⟨attrs1, hh⟩ := rewriteNodeFor_element_tag cache ("img", "src")
      "img" attrs
    simp only [attrTargets, List.foldl_cons, List.foldl_nil]
    rw [rewriteNodeFor_tag_ne (by decide), rewriteNodeFor_tag_ne (by decide),
      rewriteNodeFor_tag_ne (by decide), hh, rewriteNodeFor_tag_ne (by decide)]
  by_cases h5 : tag = "script"
  · subst h5
    have hf : attrTargets.find? (fun t' => decide (t'.1 = "script")) =
        some ("script", "src") := by decide
    rw [hf]
    obtain ⟨attrs1, hh⟩ := rewriteNodeFor_element_tag cache ("script", "src")
      "script" attrs
    simp only [attrTargets, List.foldl_cons, List.foldl_nil]
    rw [rewriteNodeFor_tag_ne (by decide), rewriteNodeFor_tag_ne (by decide),
      rewriteNodeFor_tag_ne (by decide), rewriteNodeFor_tag_ne (by decide), hh]
  · have hf : attrTargets.find? (fun t' => decide (t'.1 = tag)) = none := by
      rw [List.find?_eq_none]
      intro t' ht'
      fin_cases ht'
      · intro hd; exact h1 (of_decide_eq_true hd).symm
      · intro hd; exact h2 (of_decide_eq_true hd).symm
      · intro hd; exact h3 (of_decide_eq_true hd).symm
      · intro hd; exact h4 (of_decide_eq_true hd).symm
      · intro hd; exact h5 (of_decide_eq_true hd).symm
    rw [hf]
    simp only [attrTargets, List.foldl_cons, List.foldl_nil]
    rw [rewriteNodeFor_tag_ne (fun hc => h1 hc),
      rewriteNodeFor_tag_ne (fun hc => h2 hc),
      rewriteNodeFor_tag_ne (fun hc => h3 hc),
      rewriteNodeFor_tag_ne (fun hc => h4 hc),
      rewriteNodeFor_tag_ne (fun hc => h5 hc)]

theorem getAttr_setAttr_self (attrs : List (String × String))
    (name v : String) : getAttr (setAttr attrs name v) name = some v := by
  unfold setAttr getAttr
  by_cases hm : (attrs.find? (fun p => decide (p.1 = name))).isSome = true
  · rw [if_pos hm, List.find?_map]
    have hpred : ((fun (p : String × String) => decide (p.1 = name)) ∘
        (fun p => if p.1 = name then (name, v) else p)) =
        fun (p : String × String) => decide (p.1 = name) := by
      funext q
      by_cases hq : q.1 = name
      · simp [Function.comp, hq]
      · simp [Function.comp, hq]
    rw [hpred]
    obtain ⟨q, hf⟩ := Option.isSome_iff_exists.mp hm
    rw [hf]
    have hq : q.1 = name := by simpa using List.find?_some hf
    simp [hq]
  · have hnone : attrs.find? (fun p => decide (p.1 = name)) = none := by
      cases hf : attrs.find? (fun p => decide (p.1 = name)) with
      | none => rfl
      | some q => rw [hf] at hm; exact absurd rfl hm
    rw [if_neg hm, List.find?_append, hnone]
    simp [List.find?]

theorem getAttr_setAttr_ne (attrs : List (String × String))
    (name v name' : String) (h : ¬ name' = name) :
    getAttr (setAttr attrs name v) name' = getAttr attrs name' := by
  unfold setAttr getAttr
  by_cases hm : (attrs.find? (fun p => decide (p.1 = name))).isSome = true
  · rw [if_pos hm, List.find?_map]
    have hpred : ((fun (p : String × String) => decide (p.1 = name')) ∘
        (fun p => if p.1 = name then (name, v) else p)) =
        fun (p : String × String) => decide (p.1 = name') := by
      funext q
      by_cases hq : q.1 = name
      · simp only [Function.comp, if_pos hq]
        have h1 : ¬ (name = name') := fun hc => h hc.symm
        have h2 : ¬ (q.1 = name') := by rw [hq]; exact h1
        simp [h1, h2]
      · simp [Function.comp, hq]
    rw [hpred]
    cases hf : attrs.find? (fun p => decide (p.1 = name')) with
    | none => simp
    | some q =>
      have hq : q.1 = name' := by simpa using List.find?_some hf
      have hqn : ¬ q.1 = name := by rw [hq]; exact h
      simp [hqn]
  · rw [if_neg hm, List.find?_append]
    have hsing : List.find? (fun p => decide (p.1 = name')) [(name, v)] =
        none := by
      rw [List.find?_eq_none]
      intro x hx
      rw [List.mem_singleton] at hx
      subst hx
      simp only [decide_eq_true_eq]
      exact fun hc => h hc.symm
    rw [hsing]
    simp

theorem shortUrl_ne_empty (base sid : String) :
    ¬ (base ++ "/r/" ++ sid) = "" := by
  intro h
  have hlen := congrArg String.length h
  rw [String.length_append, String.length_append] at hlen
  have h3 : String.length "/r/" = 3 := by decide
  rw [h3] at hlen
  simp at hlen

theorem attrTargets_find?_self :
    ∀ t ∈ attrTargets,
      attrTargets.find? (fun t' => decide (t'.1 = t.1)) = some t := by
  intro t ht
  fin_cases ht <;> decide

theorem attrTargets_functional {tag n1 n2 : String}
    (h1 : (tag, n1) ∈ attrTargets) (h2 : (tag, n2) ∈ attrTargets) :
    n1 = n2 := by
  simp only [attrTargets, List.mem_cons, Prod.mk.injEq,
    List.not_mem_nil, or_false] at h1 h2
  rcases h1 with ⟨rfl, rfl⟩ | ⟨rfl, rfl⟩ | ⟨rfl, rfl⟩ | ⟨rfl, rfl⟩ |
    ⟨rfl, rfl⟩ <;> simp_all

theorem foldTargets_text (cache : List (String × String)) (s : String) :
    attrTargets.foldl (fun x t => rewriteNodeFor cache t x) (.text s) =
      .text s := by
  simp only [attrTargets, List.foldl_cons, List.foldl_nil]
  rfl

/-- Unfolding `shorten` when the resolution pass succeeds. -/
theorem shorten_of_failure_none {base : String} {ids : Nat → String}
    {store : Store} {doc : List Node}
    (h : (resolvePass base ids (uniqueUrlsOf doc)
      ((collectPass doc).map (fun u => (u, ""))) store 0 []).failure =
        none) :
    shorten base ids store doc =
      ⟨.ok (rewritePass (resolvePass base ids (uniqueUrlsOf doc)
          ((collectPass doc).map (fun u => (u, ""))) store 0 []).assignments
          doc),
        (resolvePass base ids (uniqueUrlsOf doc)
          ((collectPass doc).map (fun u => (u, ""))) store 0 []).store,
        (resolvePass base ids (uniqueUrlsOf doc)
          ((collectPass doc).map (fun u => (u, ""))) store 0 []).log⟩ := by
  unfold shorten
  dsimp only
  rw [h]

/-- An `ok` output means the resolution pass succeeded. -/
theorem shorten_ok_failure_none {base : String} {ids : Nat → String}
    {store : Store} {doc doc' : List Node}
    (hok : (shorten base ids store doc).output = .ok doc') :
    (resolvePass base ids (uniqueUrlsOf doc)
      ((collectPass doc).map (fun u => (u, ""))) store 0 []).failure =
        none := by
  cases hf : (resolvePass base ids (uniqueUrlsOf doc)
      ((collectPass doc).map (fun u => (u, ""))) store 0 []).failure with
  | none => rfl
  | some e =>
    unfold shorten at hok
    dsimp only at hok
    rw [hf] at hok
    simp at hok

/-- C3.  When a shorten operation succeeds, each distinct qualifying
address occurs exactly once in the deduplicated URL list, the pass
performs exactly one `findFirst` store lookup and at most one allocator
call for it, and every targeted occurrence of the address in the
document is rewritten to the same redirect URL, composed as
`base ++ "/r/" ++ shortId` for a mapping present in the resulting
store. -/
theorem c3_dedup_and_rewrite
    (base : String) (ids : Nat → String) (store : Store)
    (doc doc' : List Node) (u : String) (hwf : StoreWF store)
    (hok : (shorten base ids store doc).output = .ok doc')
    (hu : u ∈ uniqueUrlsOf doc) :
    (uniqueUrlsOf doc).count u = 1 ∧
    (shorten base ids store doc).log.countP (isFindFirstFor u) = 1 ∧
    (shorten base ids store doc).log.countP (isAllocCallFor u) ≤ 1 ∧
    ∃ sid, (⟨sid, u⟩ : Row) ∈ (shorten base ids store doc).store.rows ∧
      ∀ (i : Nat) (t : String × String) (tag : String)
        (attrs : List (String × String)),
        t ∈ attrTargets → doc.get? i = some (.element tag attrs) →
        tag = t.1 → getAttr attrs t.2 = some u →
        ∃ attrs', doc'.get? i = some (.element tag attrs') ∧
          getAttr attrs' t.2 = some (base ++ "/r/" ++ sid) := by
  have hfail := shorten_ok_failure_none hok
  have hsh := shorten_of_failure_none hfail
  have hout : rewritePass (resolvePass base ids (uniqueUrlsOf doc)
      ((collectPass doc).map (fun u => (u, ""))) store 0 []).assignments
      doc = doc' := by
    rw [hsh] at hok
    simpa using hok
  have hlog : (shorten base ids store doc).log =
      (resolvePass base ids (uniqueUrlsOf doc)
        ((collectPass doc).map (fun u => (u, ""))) store 0 []).log := by
    rw [hsh]
  have hstore : (shorten base ids store doc).store =
      (resolvePass base ids (uniqueUrlsOf doc)
        ((collectPass doc).map (fun u => (u, ""))) store 0 []).store := by
    rw [hsh]
  obtain ⟨hc1, hc2⟩ := resolvePass_log_mem (uniqueUrlsOf doc)
    ((collectPass doc).map (fun u => (u, ""))) store 0 []
    (uniqueUrlsOf_nodup doc) hfail u hu
  refine ⟨List.count_eq_one_of_mem (uniqueUrlsOf_nodup doc) hu, ?_, ?_, ?_⟩
  · rw [hlog, hc1]
    simp
  · rw [hlog]
    simpa using hc2
  · obtain ⟨sid, hreq, hfind⟩ := resolvePass_resolves (uniqueUrlsOf doc)
      ((collectPass doc).map (fun u => (u, ""))) store 0 [] hwf
      (uniqueUrlsOf_nodup doc) hfail u hu
    refine ⟨sid, ?_, ?_⟩
    · rw [hstore]
      exact List.mem_of_find?_eq_some hfind
    · intro i t tag attrs ht hgeti htag hattr
      have hshort : isShortenable (some u) = true := by
        obtain ⟨t', ht', nd, hnd, hq⟩ := (uniqueUrlsOf_mem doc u).mp hu
        exact qualifyingValue_shortenable hq
      subst htag
      have hq : qualifyingValue t (.element t.1 attrs) = some u := by
        simp only [qualifyingValue]
        rw [hattr]
        dsimp only
        rw [if_pos hshort]
        simp
      have hnodeF : attrTargets.foldl
          (fun x t' => rewriteNodeFor (resolvePass base ids
            (uniqueUrlsOf doc) ((collectPass doc).map (fun u => (u, "")))
            store 0 []).assignments t' x) (.element t.1 attrs) =
          .element t.1 (setAttr attrs t.2 (base ++ "/r/" ++ sid)) := by
        rw [foldTargets_element, attrTargets_find?_self t ht]
        exact rewriteNodeFor_some_hit hq hreq (shortUrl_ne_empty base sid)
      refine ⟨setAttr attrs t.2 (base ++ "/r/" ++ sid), ?_,
        getAttr_setAttr_self _ _ _⟩
      rw [← hout, rewritePass_map, List.get?_map, hgeti]
      simp only [Option.map_some']
      rw [hnodeF]

/-- Witness for C3: in `wDoc` the address `https://example.com` occurs
twice; the successful shorten performs one lookup and at most one
allocator call for it, and the output contains the uniform rewrite. -/
theorem c3_dedup_and_rewrite_witness :
    (uniqueUrlsOf wDoc).count "https://example.com" = 1 ∧
    (shorten "http://localhost:4000" wIds ⟨[]⟩ wDoc).log.countP
      (isFindFirstFor "https://example.com") = 1 ∧
    (shorten "http://localhost:4000" wIds ⟨[]⟩ wDoc).log.countP
      (isAllocCallFor "https://example.com") ≤ 1 :=
  have h := c3_dedup_and_rewrite "http://localhost:4000" wIds ⟨[]⟩ wDoc wOut
    "https://example.com" List.nodup_nil (by decide) (by decide)
  ⟨h.1, h.2.1, h.2.2.1⟩

/-- C9.  A successful shorten operation changes nothing but the targeted
qualifying attribute values: the document has the same length, text
nodes are unchanged, every element keeps its tag, attributes outside the
targeted (tag, attribute) pairs keep their values, and a targeted
attribute whose value does not qualify keeps its value. -/
theorem c9_rewrite_frame
    (base : String) (ids : Nat → String) (store : Store)
    (doc doc' : List Node)
    (hok : (shorten base ids store doc).output = .ok doc') :
    doc'.length = doc.length ∧
    (∀ i s, doc.get? i = some (.text s) → doc'.get? i = some (.text s)) ∧
    (∀ i tag attrs, doc.get? i = some (.element tag attrs) →
      ∃ attrs', doc'.get? i = some (.element tag attrs') ∧
        (∀ name, (tag, name) ∉ attrTargets →
          getAttr attrs' name = getAttr attrs name) ∧
        (∀ name, (tag, name) ∈ attrTargets →
          ¬ isShortenable (getAttr attrs name) = true →
          getAttr attrs' name = getAttr attrs name)) := by
  have hfail := shorten_ok_failure_none hok
  have hsh := shorten_of_failure_none hfail
  have hout : rewritePass (resolvePass base ids (uniqueUrlsOf doc)
      ((collectPass doc).map (fun u => (u, ""))) store 0 []).assignments
      doc = doc' := by
    rw [hsh] at hok
    simpa using hok
  refine ⟨?_, ?_, ?_⟩
  · rw [← hout, rewritePass_map, List.length_map]
  · intro i s hgi
    rw [← hout, rewritePass_map, List.get?_map, hgi]
    simp only [Option.map_some']
    rw [foldTargets_text]
  · intro i tag attrs hgi
    rw [← hout, rewritePass_map, List.get?_map, hgi]
    simp only [Option.map_some']
    rw [foldTargets_element]
    cases hf : attrTargets.find? (fun t' => decide (t'.1 = tag)) with
    | none => exact ⟨attrs, rfl, fun name _ => rfl, fun name _ _ => rfl⟩
    | some t0 =>
      dsimp only
      have ht0mem : t0 ∈ attrTargets := List.mem_of_find?_eq_some hf
      have ht0tag : t0.1 = tag := by simpa using List.find?_some hf
      have ht0pair : (tag, t0.2) ∈ attrTargets := by
        rw [← ht0tag]
        exact ht0mem
      cases hq : qualifyingValue t0 (.element tag attrs) with
      | none =>
        rw [rewriteNodeFor_none hq]
        exact ⟨attrs, rfl, fun name _ => rfl, fun name _ _ => rfl⟩
      | some h =>
        have hget0 : getAttr attrs t0.2 = some h := by
          simp only [qualifyingValue] at hq
          rw [if_pos ht0tag.symm] at hq
          cases hga : getAttr attrs t0.2 with
          | none => rw [hga] at hq; simp at hq
          | some w =>
            rw [hga] at hq
            dsimp only at hq
            by_cases hw : isShortenable (some w) = true
            · rw [if_pos hw] at hq
              exact hq
            · rw [if_neg hw] at hq
              simp at hq
        have hsh0 : isShortenable (getAttr attrs t0.2) = true := by
          rw [hget0]
          exact qualifyingValue_shortenable hq
        have hname_forces : ∀ name, (tag, name) ∈ attrTargets →
            name = t0.2 := fun name hmem =>
          attrTargets_functional hmem ht0pair
        cases hrg : reqGet (resolvePass base ids (uniqueUrlsOf doc)
            ((collectPass doc).map (fun u => (u, "")))
            store 0 []).assignments h with
        | none =>
          have hrw : rewriteNodeFor (resolvePass base ids (uniqueUrlsOf doc)
              ((collectPass doc).map (fun u => (u, "")))
              store 0 []).assignments t0 (.element tag attrs) =
              .element tag attrs := by
            unfold rewriteNodeFor
            rw [hq]
            dsimp only
            rw [hrg]
          rw [hrw]
          exact ⟨attrs, rfl, fun name _ => rfl, fun name _ _ => rfl⟩
        | some v =>
          by_cases hv : v = ""
          · have hrw : rewriteNodeFor (resolvePass base ids
                (uniqueUrlsOf doc) ((collectPass doc).map (fun u => (u, "")))
                store 0 []).assignments t0 (.element tag attrs) =
                .element tag attrs := by
              unfold rewriteNodeFor
              rw [hq]
              dsimp only
              rw [hrg]
              dsimp only
              rw [if_neg (not_not_intro hv)]
            rw [hrw]
            exact ⟨attrs, rfl, fun name _ => rfl, fun name _ _ => rfl⟩
          · rw [rewriteNodeFor_some_hit hq hrg hv]
            refine ⟨setAttr attrs t0.2 v, rfl, ?_, ?_⟩
            · intro name hn
              have hneq : ¬ name = t0.2 := by
                intro hc
                subst hc
                exact hn ht0pair
              exact getAttr_setAttr_ne attrs t0.2 v name hneq
            · intro name hmem hnq
              have hname := hname_forces name hmem
              rw [hname] at hnq
              exact absurd hsh0 hnq

/-- Witness for C9 at `wDoc`: same length, the text node and the
`mailto:` link survive unchanged, and the unrelated `class` attribute
keeps its value. -/
theorem c9_rewrite_frame_witness :
    wOut.length = wDoc.length ∧
    wOut.get? 1 = some (.text "hello") ∧
    (∃ attrs', wOut.get? 4 = some (.element "a" attrs') ∧
      getAttr attrs' "href" = getAttr [("href", "mailto:x@y.z")] "href") := by
  have h := c9_rewrite_frame "http://localhost:4000" wIds ⟨[]⟩ wDoc wOut
    (by decide)
  refine ⟨h.1, h.2.1 1 "hello" (by decide), ?_⟩
  obtain ⟨attrs', h1, _, h3⟩ := h.2.2 4 "a" [("href", "mailto:x@y.z")]
    (by decide)
  exact ⟨attrs', h1, h3 "href" (by decide) (by decide)⟩

/-- C2.  After a successful shorten maps address `u` to some identifier
`S` in the store, resolving `S` through the redirect handler yields a
redirect to `u`: on a cache miss the handler reads the store by
`shortId`, populates the cache positively and redirects to the stored
`originalUrl`; on a live positive cache hit it redirects without the
store; and resolving an identifier absent from the store populates a
negative tombstone and answers not-found. -/
theorem c2_resolution_roundtrip
    (cfg : CacheConfig) (base : String) (ids : Nat → String)
    (store : Store) (doc doc' : List Node) (u : String)
    (hwf : StoreWF store)
    (hok : (shorten base ids store doc).output = .ok doc')
    (hu : u ∈ uniqueUrlsOf doc) :
    ∃ S, findByShortId (shorten base ids store doc).store S =
        some ⟨S, u⟩ ∧
      (∀ now c c', cacheGet cfg now c S = (none, c') →
        redirectHandler cfg now (shorten base ids store doc).store c S =
          (.redirect u, cacheSet cfg now c' S (some u))) ∧
      (∀ now c c', cacheGet cfg now c S = (some (some u), c') →
        redirectHandler cfg now (shorten base ids store doc).store c S =
          (.redirect u, c')) ∧
      (∀ id now c c',
        findByShortId (shorten base ids store doc).store id = none →
        cacheGet cfg now c id = (none, c') →
        redirectHandler cfg now (shorten base ids store doc).store c id =
          (.notFound, cacheSet cfg now c' id none)) := by
  have hfail := shorten_ok_failure_none hok
  have hsh := shorten_of_failure_none hfail
  obtain ⟨sid, hreq, hfind⟩ := resolvePass_resolves (uniqueUrlsOf doc)
    ((collectPass doc).map (fun u => (u, ""))) store 0 [] hwf
    (uniqueUrlsOf_nodup doc) hfail u hu
  have hstore : (shorten base ids store doc).store =
      (resolvePass base ids (uniqueUrlsOf doc)
        ((collectPass doc).map (fun u => (u, ""))) store 0 []).store := by
    rw [hsh]
  refine ⟨sid, ?_, ?_, ?_, ?_⟩
  · rw [hstore]
    exact hfind
  · intro now c c' hcg
    unfold redirectHandler
    rw [hcg]
    dsimp only
    rw [hstore, hfind]
  · intro now c c' hcg
    unfold redirectHandler
    rw [hcg]
  · intro id now c c' hfnone hcg
    unfold redirectHandler
    rw [hcg]
    dsimp only
    rw [hfnone]

/-- Witness for C2 at `wDoc`: the mapping created for
`https://example.com` redirects back to it both through the store (cold
cache) and from a warm cache, and an unknown identifier answers
not-found with a tombstone. -/
theorem c2_resolution_roundtrip_witness :
    ∃ S, findByShortId
        (shorten "http://localhost:4000" wIds ⟨[]⟩ wDoc).store S =
        some ⟨S, "https://example.com"⟩ ∧
      (∀ now c c',
        cacheGet ⟨1000, 300000, 30000⟩ now c S = (none, c') →
        redirectHandler ⟨1000, 300000, 30000⟩ now
            (shorten "http://localhost:4000" wIds ⟨[]⟩ wDoc).store c S =
          (.redirect "https://example.com",
            cacheSet ⟨1000, 300000, 30000⟩ now c' S
              (some "https://example.com"))) ∧
      (∀ now c c',
        cacheGet ⟨1000, 300000, 30000⟩ now c S =
          (some (some "https://example.com"), c') →
        redirectHandler ⟨1000, 300000, 30000⟩ now
            (shorten "http://localhost:4000" wIds ⟨[]⟩ wDoc).store c S =
          (.redirect "https://example.com", c')) ∧
      (∀ id now c c',
        findByShortId
          (shorten "http://localhost:4000" wIds ⟨[]⟩ wDoc).store id =
            none →
        cacheGet ⟨1000, 300000, 30000⟩ now c id = (none, c') →
        redirectHandler ⟨1000, 300000, 30000⟩ now
            (shorten "http://localhost:4000" wIds ⟨[]⟩ wDoc).store c id =
          (.notFound, cacheSet ⟨1000, 300000, 30000⟩ now c' id none)) :=
  c2_resolution_roundtrip ⟨1000, 300000, 30000⟩ "http://localhost:4000"
    wIds ⟨[]⟩ wDoc wOut "https://example.com" List.nodup_nil (by decide)
    (by decide)

theorem cacheSet_fresh_small (cfg : CacheConfig) (now : Nat) (c : Cache)
    (k : String) (v : Option String) (hnot : k ∉ cacheKeys c)
    (hroom : c.length + 1 ≤ cfg.maxEntries) :
    cacheSet cfg now c k v =
      c ++ [(k, ⟨v, now + (if v = none then cfg.negTtlMs
        else cfg.ttlMs)⟩)] := by
  unfold cacheSet
  dsimp only
  rw [mapSet_of_not_mem _ hnot]
  have hlen : ¬ (c ++ [(k, (⟨v, now + (if v = none then cfg.negTtlMs
      else cfg.ttlMs)⟩ : CacheEntry))]).length > cfg.maxEntries := by
    simp only [List.length_append, List.length_singleton]
    omega
  rw [if_neg hlen]

theorem cacheSet_fresh_full (cfg : CacheConfig) (now : Nat) (c : Cache)
    (k : String) (v : Option String) (hnot : k ∉ cacheKeys c)
    (hwf : CacheWF c) (hfull : cfg.maxEntries < c.length + 1) :
    cacheSet cfg now c k v =
      (c ++ [(k, (⟨v, now + (if v = none then cfg.negTtlMs
        else cfg.ttlMs)⟩ : CacheEntry))]).tail := by
  unfold cacheSet
  dsimp only
  rw [mapSet_of_not_mem _ hnot]
  have hlen : (c ++ [(k, (⟨v, now + (if v = none then cfg.negTtlMs
      else cfg.ttlMs)⟩ : CacheEntry))]).length > cfg.maxEntries := by
    simp only [List.length_append, List.length_singleton]
    omega
  rw [if_pos hlen]
  cases c with
  | nil =>
    simp [mapDelete]
  | cons p rest =>
    simp only [List.cons_append, List.head?_cons, List.tail_cons]
    unfold mapDelete
    rw [List.filter_cons]
    have hp : decide (¬ p.1 = p.1) = false := by simp
    rw [hp]
    simp only [Bool.false_eq_true, if_false]
    rw [List.filter_append]
    have hrest : rest.filter (fun q => decide (¬ q.1 = p.1)) = rest := by
      rw [List.filter_eq_self]
      intro q hq
      have hnodup := hwf
      unfold CacheWF cacheKeys at hnodup
      rw [List.map_cons, List.nodup_cons] at hnodup
      have : ¬ q.1 = p.1 := by
        intro hc
        exact hnodup.1 (hc ▸ List.mem_map_of_mem Prod.fst hq)
      simpa using this
    rw [hrest]
    have hk : List.filter (fun q => decide (¬ q.1 = p.1))
        [(k, (⟨v, now + (if v = none then cfg.negTtlMs
          else cfg.ttlMs)⟩ : CacheEntry))] =
        [(k, (⟨v, now + (if v = none then cfg.negTtlMs
          else cfg.ttlMs)⟩ : CacheEntry))] := by
      rw [List.filter_eq_self]
      intro q hq
      rw [List.mem_singleton] at hq
      subst hq
      have : ¬ k = p.1 := fun hc => hnot (by
        rw [hc]
        exact List.mem_map_of_mem Prod.fst (List.mem_cons_self p rest))
      simpa using this
    rw [hk]

theorem mapDelete_length_mem {c : Cache} {k : String} (hwf : CacheWF c)
    (hmem : k ∈ cacheKeys c) :
    (mapDelete c k).length + 1 = c.length := by
  induction c with
  | nil => exact absurd hmem (by simp [cacheKeys])
  | cons p rest ih =>
    unfold CacheWF cacheKeys at hwf
    rw [List.map_cons, List.nodup_cons] at hwf
    by_cases hp : p.1 = k
    · unfold mapDelete
      rw [List.filter_cons]
      have hd : decide (¬ p.1 = k) = false := by simpa using hp
      rw [hd]
      simp only [Bool.false_eq_true, if_false]
      have hrest : rest.filter (fun q => decide (¬ q.1 = k)) = rest := by
        rw [List.filter_eq_self]
        intro q hq
        have : ¬ q.1 = k := by
          intro hc
          exact hwf.1 (by
            rw [hp, ← hc]
            exact List.mem_map_of_mem Prod.fst hq)
        simpa using this
      rw [hrest]
      simp
    · have hmem' : k ∈ cacheKeys rest := by
        rcases List.mem_cons.mp hmem with hk | hk
        · exact absurd hk.symm (by simpa using hp)
        · exact hk
      have := ih hwf.2 hmem'
      unfold mapDelete
      rw [List.filter_cons]
      have hd : decide (¬ p.1 = k) = true := by simpa using hp
      rw [hd]
      simp only [if_true, List.length_cons]
      unfold mapDelete at this
      omega

theorem mapGet_of_mem {c : Cache} {k : String} {e : CacheEntry}
    (hwf : CacheWF c) (hmem : (k, e) ∈ c) : mapGet c k = some e := by
  induction c with
  | nil => exact absurd hmem (List.not_mem_nil _)
  | cons p rest ih =>
    unfold CacheWF cacheKeys at hwf
    rw [List.map_cons, List.nodup_cons] at hwf
    rcases List.mem_cons.mp hmem with rfl | hm
    · unfold mapGet
      rw [List.find?_cons]
      simp
    · have hne : ¬ p.1 = k := by
        intro hc
        exact hwf.1 (by
          rw [hc]
          exact List.mem_map_of_mem Prod.fst hm)
      unfold mapGet
      rw [List.find?_cons]
      have hd : decide (p.1 = k) = false := by simpa using hne
      rw [hd]
      exact ih hwf.2 hm

theorem tail_append_cons (xs : List String) (k : String) (ys : List String) :
    (xs ++ [k]).tail ++ ys = (xs ++ (k :: ys)).tail := by
  cases xs <;> simp

/-- Behaviour of a block of `cacheSet`s over fresh distinct keys: the
surviving keys are the last `maxEntries` of the original order (each
overflow evicts the first key), the key invariant and the capacity bound
are maintained, and every new entry carries its value with expiry
`now + ttl`. -/
theorem setFold_spec (cfg : CacheConfig) (now : Nat)
    (vs : String → Option String) (ks : List String) :
    ∀ c : Cache, CacheWF c → (cacheKeys c ++ ks).Nodup →
      c.length ≤ cfg.maxEntries →
      cacheKeys (ks.foldl (fun c k => cacheSet cfg now c k (vs k)) c) =
          (cacheKeys c ++ ks).drop
            ((c.length + ks.length) - cfg.maxEntries) ∧
        CacheWF (ks.foldl (fun c k => cacheSet cfg now c k (vs k)) c) ∧
        (ks.foldl (fun c k => cacheSet cfg now c k (vs k)) c).length ≤
          cfg.maxEntries ∧
        ∀ p ∈ ks.foldl (fun c k => cacheSet cfg now c k (vs k)) c,
          p ∈ c ∨ p.2 = ⟨vs p.1,
            now + (if vs p.1 = none then cfg.negTtlMs else cfg.ttlMs)⟩ := by
  induction ks with
  | nil =>
    intro c hwf hnd hlen
    refine ⟨?_, hwf, hlen, fun p hp => Or.inl hp⟩
    rw [List.foldl_nil, List.append_nil]
    have h0 : c.length + ([] : List String).length - cfg.maxEntries = 0 := by
      simp only [List.length_nil]
      omega
    rw [h0, List.drop_zero]
  | cons k ks ih =>
    intro c hwf hnd hlen
    rw [List.foldl_cons]
    have hknotc : k ∉ cacheKeys c := by
      intro hk
      rw [List.nodup_append] at hnd
      exact hnd.2.2 hk (List.mem_cons_self k ks)
    have hkeysnd : (cacheKeys c ++ [k]).Nodup := by
      refine List.Nodup.sublist ?_ hnd
      exact List.Sublist.append_left
        (List.cons_sublist_cons.mpr (List.nil_sublist ks)) (cacheKeys c)
    by_cases hroom : c.length + 1 ≤ cfg.maxEntries
    · rw [cacheSet_fresh_small cfg now c k (vs k) hknotc hroom]
      have hkeys : cacheKeys (c ++ [(k, (⟨vs k,
          now + (if vs k = none then cfg.negTtlMs else cfg.ttlMs)⟩ :
            CacheEntry))]) = cacheKeys c ++ [k] := by
        unfold cacheKeys
        rw [List.map_append]
        rfl
      have hwf' : CacheWF (c ++ [(k, (⟨vs k,
          now + (if vs k = none then cfg.negTtlMs else cfg.ttlMs)⟩ :
            CacheEntry))]) := by
        unfold CacheWF
        rw [hkeys]
        exact hkeysnd
      have hnd' : (cacheKeys (c ++ [(k, (⟨vs k,
          now + (if vs k = none then cfg.negTtlMs else cfg.ttlMs)⟩ :
            CacheEntry))]) ++ ks).Nodup := by
        rw [hkeys, List.append_assoc, List.singleton_append]
        exact hnd
      have hlen' : (c ++ [(k, (⟨vs k,
          now + (if vs k = none then cfg.negTtlMs else cfg.ttlMs)⟩ :
            CacheEntry))]).length ≤ cfg.maxEntries := by
        simp only [List.length_append, List.length_singleton]
        omega
      obtain ⟨ih1, ih2, ih3, ih4⟩ := ih _ hwf' hnd' hlen'
      refine ⟨?_, ih2, ih3, ?_⟩
      · rw [ih1, hkeys, List.append_assoc, List.singleton_append]
        have hidx : ∀ E : CacheEntry,
            (c ++ [(k, E)]).length + ks.length - cfg.maxEntries =
              c.length + (k :: ks).length - cfg.maxEntries := by
          intro E
          simp only [List.length_append, List.length_singleton,
            List.length_cons, List.length_nil]
          omega
        rw [hidx]
      · intro p hp
        rcases ih4 p hp with hmem | hval
        · rcases List.mem_append.mp hmem with h | h
          · exact Or.inl h
          · rw [List.mem_singleton] at h
            subst h
            exact Or.inr rfl
        · exact Or.inr hval
    · have hfull : cfg.maxEntries < c.length + 1 := by omega
      rw [cacheSet_fresh_full cfg now c k (vs k) hknotc hwf hfull]
      have hkeys : cacheKeys ((c ++ [(k, (⟨vs k,
          now + (if vs k = none then cfg.negTtlMs else cfg.ttlMs)⟩ :
            CacheEntry))]).tail) = (cacheKeys c ++ [k]).tail := by
        unfold cacheKeys
        rw [List.map_tail, List.map_append]
        rfl
      have hwf' : CacheWF ((c ++ [(k, (⟨vs k,
          now + (if vs k = none then cfg.negTtlMs else cfg.ttlMs)⟩ :
            CacheEntry))]).tail) := by
        unfold CacheWF
        rw [hkeys]
        exact List.Nodup.sublist (List.tail_sublist _) hkeysnd
      have hnd' : (cacheKeys ((c ++ [(k, (⟨vs k,
          now + (if vs k = none then cfg.negTtlMs else cfg.ttlMs)⟩ :
            CacheEntry))]).tail) ++ ks).Nodup := by
        rw [hkeys]
        have hs := List.Sublist.append_right
          (List.tail_sublist (cacheKeys c ++ [k])) ks
        rw [List.append_assoc, List.singleton_append] at hs
        exact List.Nodup.sublist hs hnd
      have hlen' : ((c ++ [(k, (⟨vs k,
          now + (if vs k = none then cfg.negTtlMs else cfg.ttlMs)⟩ :
            CacheEntry))]).tail).length ≤ cfg.maxEntries := by
        rw [List.length_tail]
        simp only [List.length_append, List.length_singleton]
        omega
      obtain ⟨ih1, ih2, ih3, ih4⟩ := ih _ hwf' hnd' hlen'
      refine ⟨?_, ih2, ih3, ?_⟩
      · rw [ih1, hkeys, tail_append_cons, List.drop_tail]
        have hidx : ∀ E : CacheEntry,
            (c ++ [(k, E)]).tail.length + ks.length - cfg.maxEntries + 1 =
              c.length + (k :: ks).length - cfg.maxEntries := by
          intro E
          rw [List.length_tail]
          simp only [List.length_append, List.length_singleton,
            List.length_cons, List.length_nil]
          omega
        rw [hidx]
      · intro p hp
        rcases ih4 p hp with hmem | hval
        · have hmem' : p ∈ c ++ [(k, (⟨vs k,
              now + (if vs k = none then cfg.negTtlMs else cfg.ttlMs)⟩ :
                CacheEntry))] := List.mem_of_mem_tail hmem
          rcases List.mem_append.mp hmem' with h | h
          · exact Or.inl h
          · rw [List.mem_singleton] at h
            subst h
            exact Or.inr rfl
        · exact Or.inr hval

/-- Counterexample to C5 as stated, at capacity `C = 1`: after
`set "k0"`, a successful `get "k0"`, and the fresh `set "k1"`, the
touched key `"k0"` is evicted by that set. -/
theorem c5_counterexample :
    (cacheGet ⟨1, 300000, 30000⟩ 1
        (cacheSet ⟨1, 300000, 30000⟩ 0 [] "k0" (some "u0")) "k0").1 =
      some (some "u0") ∧
    "k0" ∉ cacheKeys (cacheSet ⟨1, 300000, 30000⟩ 2
      (cacheGet ⟨1, 300000, 30000⟩ 1
        (cacheSet ⟨1, 300000, 30000⟩ 0 [] "k0" (some "u0")) "k0").2
      "k1" (some "u1")) := by
  decide

/-- C5 as amended.  (i) For any capacity: setting `C+1` distinct keys
into the empty cache evicts exactly the first-inserted key (the
surviving keys are the insertion order minus its head), and after every
prefix of those sets the cache holds at most `C` entries.  (ii) For
capacity at least 2: after filling the cache with `C` distinct keys, a
successful `get` on one of them returns its value, and that key
survives the eviction triggered by the next fresh `set`. -/
theorem c5_amended (cfg : CacheConfig) (now : Nat)
    (vs : String → Option String) :
    (∀ ks : List String, ks.Nodup → ks.length = cfg.maxEntries + 1 →
      cacheKeys (ks.foldl (fun c k => cacheSet cfg now c k (vs k)) []) =
          ks.drop 1 ∧
        ∀ m : Nat, ((ks.take m).foldl
          (fun c k => cacheSet cfg now c k (vs k)) []).length ≤
            cfg.maxEntries) ∧
    (∀ (ks : List String) (kj knew : String), ks.Nodup →
      ks.length = cfg.maxEntries → 2 ≤ cfg.maxEntries →
      kj ∈ ks → knew ∉ ks → 0 < cfg.ttlMs → 0 < cfg.negTtlMs →
      (cacheGet cfg now
          (ks.foldl (fun c k => cacheSet cfg now c k (vs k)) []) kj).1 =
        some (vs kj) ∧
      kj ∈ cacheKeys (cacheSet cfg now
        (cacheGet cfg now
          (ks.foldl (fun c k => cacheSet cfg now c k (vs k)) []) kj).2
        knew (vs knew))) := by
  constructor
  · intro ks hnd hlen
    have hwf0 : CacheWF ([] : Cache) := List.nodup_nil
    have hnd0 : (cacheKeys ([] : Cache) ++ ks).Nodup := by
      simpa [cacheKeys] using hnd
    obtain ⟨h1, _, _, _⟩ := setFold_spec cfg now vs ks [] hwf0 hnd0 (by simp)
    constructor
    · rw [h1]
      simp only [cacheKeys, List.map_nil, List.nil_append, List.length_nil]
      have hidx : 0 + ks.length - cfg.maxEntries = 1 := by omega
      rw [hidx]
    · intro m
      have hndm : (cacheKeys ([] : Cache) ++ ks.take m).Nodup := by
        simp only [cacheKeys, List.map_nil, List.nil_append]
        exact List.Nodup.sublist (List.take_sublist m ks) hnd
      obtain ⟨_, _, h3, _⟩ := setFold_spec cfg now vs (ks.take m) [] hwf0
        hndm (by simp)
      exact h3
  · intro ks kj knew hnd hlen hC hkj hknew hpos hneg
    have hwf0 : CacheWF ([] : Cache) := List.nodup_nil
    have hnd0 : (cacheKeys ([] : Cache) ++ ks).Nodup := by
      simpa [cacheKeys] using hnd
    obtain ⟨h1, h2, h3, h4⟩ := setFold_spec cfg now vs ks [] hwf0 hnd0
      (by simp)
    have hkeys1 : cacheKeys (ks.foldl
        (fun c k => cacheSet cfg now c k (vs k)) []) = ks := by
      rw [h1]
      simp only [cacheKeys, List.map_nil, List.nil_append, List.length_nil]
      have hidx : 0 + ks.length - cfg.maxEntries = 0 := by omega
      rw [hidx, List.drop_zero]
    have hmemk : kj ∈ cacheKeys (ks.foldl
        (fun c k => cacheSet cfg now c k (vs k)) []) := by
      rw [hkeys1]
      exact hkj
    obtain ⟨e, hke⟩ := mem_cacheKeys.mp hmemk
    have hev : e = ⟨vs kj, now + (if vs kj = none then cfg.negTtlMs
        else cfg.ttlMs)⟩ := by
      rcases h4 (kj, e) hke with hin | hval
      · exact absurd hin (List.not_mem_nil _)
      · exact hval
    subst hev
    have hget : mapGet (ks.foldl (fun c k => cacheSet cfg now c k (vs k)) [])
        kj = some ⟨vs kj, now + (if vs kj = none then cfg.negTtlMs
          else cfg.ttlMs)⟩ := mapGet_of_mem h2 hke
    have httl : 0 < (if vs kj = none then cfg.negTtlMs else cfg.ttlMs) := by
      by_cases hv : vs kj = none
      · rw [if_pos hv]; exact hneg
      · rw [if_neg hv]; exact hpos
    have hlive : ¬ (now + (if vs kj = none then cfg.negTtlMs
        else cfg.ttlMs) ≤ now) := by omega
    have hcg : cacheGet cfg now (ks.foldl
        (fun c k => cacheSet cfg now c k (vs k)) []) kj =
        (some (vs kj),
          mapDelete (ks.foldl (fun c k => cacheSet cfg now c k (vs k)) [])
              kj ++
            [(kj, ⟨vs kj, now + (if vs kj = none then cfg.negTtlMs
              else cfg.ttlMs)⟩)]) := by
      unfold cacheGet
      rw [hget]
      dsimp only
      rw [if_neg hlive]
      rw [mapSet_of_not_mem _ (not_mem_cacheKeys_mapDelete _ kj)]
    refine ⟨by rw [hcg], ?_⟩
    rw [hcg]
    have hc1len : (ks.foldl (fun c k => cacheSet cfg now c k (vs k))
        []).length = cfg.maxEntries := by
      have hh := congrArg List.length hkeys1
      unfold cacheKeys at hh
      rw [List.length_map] at hh
      rw [hh, hlen]
    have hdel := mapDelete_length_mem h2 hmemk
    have hdelkeys : cacheKeys (mapDelete (ks.foldl
        (fun c k => cacheSet cfg now c k (vs k)) []) kj) =
        (cacheKeys (mapDelete (ks.foldl
          (fun c k => cacheSet cfg now c k (vs k)) []) kj)) := rfl
    have hdelsub : (cacheKeys (mapDelete (ks.foldl
        (fun c k => cacheSet cfg now c k (vs k)) []) kj)).Sublist ks := by
      have hsub0 : (cacheKeys (mapDelete (ks.foldl
          (fun c k => cacheSet cfg now c k (vs k)) []) kj)).Sublist
          (cacheKeys (ks.foldl
            (fun c k => cacheSet cfg now c k (vs k)) [])) :=
        List.Sublist.map Prod.fst (List.filter_sublist _)
      rw [hkeys1] at hsub0
      exact hsub0
    have hdelnodup : (cacheKeys (mapDelete (ks.foldl
        (fun c k => cacheSet cfg now c k (vs k)) []) kj)).Nodup :=
      List.Nodup.sublist hdelsub hnd
    have hkeys2 : cacheKeys (mapDelete (ks.foldl
        (fun c k => cacheSet cfg now c k (vs k)) []) kj ++
          [(kj, (⟨vs kj, now + (if vs kj = none then cfg.negTtlMs
            else cfg.ttlMs)⟩ : CacheEntry))]) =
        cacheKeys (mapDelete (ks.foldl
          (fun c k => cacheSet cfg now c k (vs k)) []) kj) ++ [kj] := by
      unfold cacheKeys
      rw [List.map_append]
      rfl
    have hwf2 : CacheWF (mapDelete (ks.foldl
        (fun c k => cacheSet cfg now c k (vs k)) []) kj ++
          [(kj, (⟨vs kj, now + (if vs kj = none then cfg.negTtlMs
            else cfg.ttlMs)⟩ : CacheEntry))]) := by
      unfold CacheWF
      rw [hkeys2]
      refine List.Nodup.append hdelnodup (List.nodup_singleton _) ?_
      intro a ha ha'
      rw [List.mem_singleton] at ha'
      subst ha'
      exact not_mem_cacheKeys_mapDelete _ _ ha
    have hknew2 : knew ∉ cacheKeys (mapDelete (ks.foldl
        (fun c k => cacheSet cfg now c k (vs k)) []) kj ++
          [(kj, (⟨vs kj, now + (if vs kj = none then cfg.negTtlMs
            else cfg.ttlMs)⟩ : CacheEntry))]) := by
      rw [hkeys2]
      intro hmem
      rcases List.mem_append.mp hmem with hm | hm
      · exact hknew (hdelsub.subset hm)
      · rw [List.mem_singleton] at hm
        subst hm
        exact hknew hkj
    have hlen2 : (mapDelete (ks.foldl
        (fun c k => cacheSet cfg now c k (vs k)) []) kj ++
          [(kj, (⟨vs kj, now + (if vs kj = none then cfg.negTtlMs
            else cfg.ttlMs)⟩ : CacheEntry))]).length = cfg.maxEntries := by
      rw [List.length_append, List.length_singleton]
      omega
    rw [cacheSet_fresh_full cfg now _ knew (vs knew) hknew2 hwf2
      (by omega)]
    have hkeys3 : cacheKeys (((mapDelete (ks.foldl
        (fun c k => cacheSet cfg now c k (vs k)) []) kj ++
          [(kj, (⟨vs kj, now + (if vs kj = none then cfg.negTtlMs
            else cfg.ttlMs)⟩ : CacheEntry))]) ++
          [(knew, (⟨vs knew, now + (if vs knew = none then cfg.negTtlMs
            else cfg.ttlMs)⟩ : CacheEntry))]).tail) =
        ((cacheKeys (mapDelete (ks.foldl
          (fun c k => cacheSet cfg now c k (vs k)) []) kj) ++ [kj]) ++
            [knew]).tail := by
      unfold cacheKeys
      rw [List.map_tail, List.map_append, List.map_append]
      rfl
    rw [hkeys3]
    have hne0 : cacheKeys (mapDelete (ks.foldl
        (fun c k => cacheSet cfg now c k (vs k)) []) kj) ≠ [] := by
      intro hnil
      have := congrArg List.length hnil
      unfold cacheKeys at this
      rw [List.length_map] at this
      simp only [List.length_nil] at this
      omega
    rw [List.tail_append_of_ne_nil (by
      intro hc
      exact hne0 (by simpa using congrArg (List.take (cacheKeys
        (mapDelete (ks.foldl (fun c k => cacheSet cfg now c k (vs k)) [])
          kj)).length) hc))]
    · rw [List.tail_append_of_ne_nil hne0]
      simp

/-- Witness for C5's amended statement at capacity 2: three distinct
sets evict exactly the first key, the cache never exceeds two entries,
and a got key survives the next eviction. -/
theorem c5_amended_witness :
    (cacheKeys ((["a", "b", "c"] : List String).foldl
        (fun c k => cacheSet ⟨2, 300000, 30000⟩ 7 c k (some k)) []) =
      (["a", "b", "c"] : List String).drop 1) ∧
    ((((["a", "b", "c"] : List String).take 2).foldl
        (fun c k => cacheSet ⟨2, 300000, 30000⟩ 7 c k (some k))
        []).length ≤ 2) ∧
    ((cacheGet ⟨2, 300000, 30000⟩ 7 ((["a", "b"] : List String).foldl
        (fun c k => cacheSet ⟨2, 300000, 30000⟩ 7 c k (some k)) []) "a").1 =
      some (some "a")) ∧
    ("a" ∈ cacheKeys (cacheSet ⟨2, 300000, 30000⟩ 7
      (cacheGet ⟨2, 300000, 30000⟩ 7 ((["a", "b"] : List String).foldl
        (fun c k => cacheSet ⟨2, 300000, 30000⟩ 7 c k (some k)) []) "a").2
      "c" (some "c"))) := by
  have hA := (c5_amended ⟨2, 300000, 30000⟩ 7 (fun k => some k)).1
    ["a", "b", "c"] (by decide) (by decide)
  have hB := (c5_amended ⟨2, 300000, 30000⟩ 7 (fun k => some k)).2
    ["a", "b"] "a" "c" (by decide) (by decide) (by decide) (by decide)
    (by decide) (by decide) (by decide)
  exact ⟨hA.1, hA.2 2, hB.1, hB.2⟩

end UrlShortener

